import Mathlib

/-!
Particle simulator (`particles.cpp`): embedding and verified properties.

The program keeps a global array of `NUM_PARTICLES` particles, each a pair of `float2`
values (position, velocity).  A CUDA kernel `updateParticles` advances one particle per
thread; `initParticles` fills the array from `rand()`; `idle` launches the kernel, waits
for the device and requests a redraw.

Arithmetic model.

`float` is IEEE-754 binary32.  A value of the model type `F32` is a NaN, one of the two
infinities, or a finite rational; every operation returns the exact result rounded to
binary32 with round-to-nearest, ties-to-even, and overflow to an infinity, which is what
the operators `+`, `*`, `/` on `float` compute.  The model does not record the sign of a
zero or the payload of a NaN: the program never divides by a zero and never inspects a
sign bit, so neither can influence a result.

The kernel is device code, and `nvcc` contracts a product followed by a sum into one
fused multiply-add (its default): `p.position.x += p.velocity.x * DT` computes
`fmaf(p.velocity.x, DT, p.position.x)`, the exact value of the sum rounded once.  The
product `accel.y * DT` of two compile-time constants is folded, that is rounded, at
compile time and then added.  `initParticles` is host code with no product followed by a
sum.

A finite value `F32.fin q` stands for a `float` only when `q` is on the binary32 grid;
`F32.wf` says so, and every result of an operation satisfies it.

Reading of the specification.

The formulas of the specification are read in the arithmetic of the program: a decimal
such as `0.01` or `-0.098` stands for the nearest binary32 value, as the literal `0.01f`
does in the source, `9.8*DT` is the rounded constant, and `a + b*DT` is the fused
multiply-add of the kernel.

Concurrency model.

The threads of a launch are run one after the other, in an arbitrary order given by a
schedule; a thread is not interleaved with another.
-/

namespace ParticleSim

/-! ## binary32 arithmetic -/

/-- Power of two with an integer exponent, as a rational. -/
def pow2 (e : ℤ) : ℚ :=
  if 0 ≤ e then ((2 ^ e.toNat : ℕ) : ℚ) else 1 / ((2 ^ (-e).toNat : ℕ) : ℚ)

/-- Exponent of the unit in the last place for a magnitude `a`: starting from the
candidate `e` the search returns the first exponent `e'` with `a < 2 ^ (e' + 24)`,
giving up after `k` candidates. -/
def expOf (a : ℚ) : ℕ → ℤ → ℤ
  | 0, e => e
  | k + 1, e => if a < pow2 (e + 24) then e else expOf a k (e + 1)

/-- Round a rational to the nearest integer, ties to the even neighbour. -/
def roundHalfEven (q : ℚ) : ℤ :=
  let f := ⌊q⌋
  let r := q - f
  if r < 1 / 2 then f else if 1 / 2 < r then f + 1 else if f % 2 = 0 then f else f + 1

/-- Round a magnitude to 24 significant bits with least exponent `-149` (the binary32
grid, subnormals included), exponent range unbounded above. -/
def rndAbs (a : ℚ) : ℚ :=
  let e := expOf a 254 (-149)
  (roundHalfEven (a / pow2 e) : ℚ) * pow2 e

/-- Signed rounding to the binary32 grid (sign-symmetric). -/
def rndS (x : ℚ) : ℚ := if x < 0 then -rndAbs (-x) else rndAbs x

/-- Values of a binary32 `float`. -/
inductive F32
  | nan
  | ninf
  | pinf
  | fin (q : ℚ)
  deriving DecidableEq

/-- Correctly rounded binary32 result of an exact value: a rounded magnitude of
`2 ^ 128` or more overflows to the infinity of the same sign. -/
def rnd (x : ℚ) : F32 :=
  let r := rndS x
  if pow2 128 ≤ r then .pinf else if r ≤ -pow2 128 then .ninf else .fin r

namespace F32

/-- A decimal `float` literal denotes the nearest binary32 value. -/
def lit (q : ℚ) : F32 := rnd q

/-- Conversion of an `int` to `float`. -/
def ofInt (z : ℤ) : F32 := rnd (z : ℚ)

/-- A value of the model is a binary32 value when rounding leaves it unchanged. -/
def wf : F32 → Prop
  | fin q => rnd q = fin q
  | _ => True

instance : DecidablePred wf := fun x => by
  cases x <;> unfold wf <;> infer_instance

/-- Unary minus. -/
def neg : F32 → F32
  | nan => nan
  | ninf => pinf
  | pinf => ninf
  | fin q => fin (-q)

/-- Binary32 addition. -/
def add : F32 → F32 → F32
  | nan, _ => nan
  | _, nan => nan
  | pinf, ninf => nan
  | ninf, pinf => nan
  | pinf, _ => pinf
  | _, pinf => pinf
  | ninf, _ => ninf
  | _, ninf => ninf
  | fin a, fin b => rnd (a + b)

/-- Binary32 subtraction. -/
def sub (a b : F32) : F32 := add a (neg b)

/-- An infinity of the given sign. -/
def infOf (negative : Bool) : F32 := if negative then ninf else pinf

/-- Binary32 multiplication. -/
def mul : F32 → F32 → F32
  | nan, _ => nan
  | _, nan => nan
  | pinf, pinf => pinf
  | pinf, ninf => ninf
  | ninf, pinf => ninf
  | ninf, ninf => pinf
  | pinf, fin b => if b = 0 then nan else infOf (decide (b < 0))
  | ninf, fin b => if b = 0 then nan else infOf (decide (0 < b))
  | fin a, pinf => if a = 0 then nan else infOf (decide (a < 0))
  | fin a, ninf => if a = 0 then nan else infOf (decide (0 < a))
  | fin a, fin b => rnd (a * b)

/-- Fused multiply-add `fmaf(a, b, c)`: the exact value of `a * b + c` rounded once.  When
`a` or `b` is not finite the product is a NaN or an infinity and no rounding is involved;
when both are finite and `c` is not, the result is `c`. -/
def fma : F32 → F32 → F32 → F32
  | fin a, fin b, fin c => rnd (a * b + c)
  | fin _, fin _, c => c
  | a, b, c => add (mul a b) c

/-- Binary32 division.  A zero divisor is taken as `+0` (the sign of a zero is not
recorded); the program divides by the constant `100.0f` only. -/
def div : F32 → F32 → F32
  | nan, _ => nan
  | _, nan => nan
  | pinf, pinf => nan
  | pinf, ninf => nan
  | ninf, pinf => nan
  | ninf, ninf => nan
  | pinf, fin b => infOf (decide (b < 0))
  | ninf, fin b => infOf (decide (0 ≤ b))
  | fin _, pinf => fin 0
  | fin _, ninf => fin 0
  | fin a, fin b =>
    if b = 0 then (if a = 0 then nan else infOf (decide (a < 0))) else rnd (a / b)

/-- The comparison `a < b` of two floats; false when either is a NaN. -/
def lt : F32 → F32 → Bool
  | nan, _ => false
  | _, nan => false
  | _, ninf => false
  | pinf, _ => false
  | ninf, _ => true
  | fin _, pinf => true
  | fin a, fin b => decide (a < b)

/-- The comparison `a <= b` of two floats; false when either is a NaN. -/
def le : F32 → F32 → Bool
  | nan, _ => false
  | _, nan => false
  | ninf, _ => true
  | _, pinf => true
  | pinf, _ => false
  | fin _, ninf => false
  | fin a, fin b => decide (a ≤ b)

/-- Absolute value (`fabsf`). -/
def abs : F32 → F32
  | nan => nan
  | ninf => pinf
  | pinf => pinf
  | fin q => fin |q|

/-- Neither a NaN nor an infinity. -/
def isFinite : F32 → Bool
  | fin _ => true
  | _ => false

end F32

/-! ## The program -/

/-- `const int NUM_PARTICLES = 10000;` -/
def NUM_PARTICLES : ℕ := 10000

/-- `const float DT = 0.01f;` -/
def DT : F32 := F32.lit (1 / 100)

/-- CUDA `float2`. -/
structure float2 where
  x : F32
  y : F32
  deriving DecidableEq

/-- CUDA `make_float2`. -/
def make_float2 (x y : F32) : float2 := ⟨x, y⟩

/-- `struct Particle { float2 position; float2 velocity; };` -/
structure Particle where
  position : float2
  velocity : float2
  deriving DecidableEq

/-- All four components of the particle are binary32 values. -/
def Particle.wf (p : Particle) : Prop :=
  p.position.x.wf ∧ p.position.y.wf ∧ p.velocity.x.wf ∧ p.velocity.y.wf

instance : DecidablePred Particle.wf := fun p => by
  unfold Particle.wf
  infer_instance

/-- Body of the kernel `updateParticles` after the index guard, acting on the slot
`p = particles[i]`: gravity, position update, bounce off the bottom boundary.  The two
position updates are fused multiply-adds; `accel.x * DT` and `accel.y * DT` are products
of constants. -/
def stepParticle (p : Particle) : Particle :=
  let accel := make_float2 (F32.lit 0) (F32.neg (F32.lit (98 / 10)))
  let vx := F32.add p.velocity.x (F32.mul accel.x DT)
  let vy := F32.add p.velocity.y (F32.mul accel.y DT)
  let px := F32.fma vx DT p.position.x
  let py := F32.fma vy DT p.position.y
  if F32.lt py (F32.neg (F32.lit 1)) then
    { position := ⟨px, F32.neg (F32.lit 1)⟩,
      velocity := ⟨vx, F32.mul vy (F32.neg (F32.lit (8 / 10)))⟩ }
  else
    { position := ⟨px, py⟩, velocity := ⟨vx, vy⟩ }

/-- One thread of the kernel `updateParticles`, as a transformation of the global array
`particles`: the thread computes its global index, returns at once when the index is not
below `NUM_PARTICLES`, and otherwise updates its own slot in place.  For the threads of
the launch in `idle` the index is at most `40 * 256 - 1`, so the 32-bit arithmetic of the
source does not wrap.  The array has `NUM_PARTICLES` slots, so the slot of an index that
passes the guard exists. -/
def updateParticles (blockIdx blockDim threadIdx : ℕ) (particles : List Particle) :
    List Particle :=
  let i := blockIdx * blockDim + threadIdx
  if i ≥ NUM_PARTICLES then particles
  else
    match particles[i]? with
    | some p => particles.set i (stepParticle p)
    | none => particles

/-- The threads of a launch `<<<gridDim, blockDim>>>`, as (block, thread) pairs in
row-major order. -/
def gridThreads (gridDim blockDim : ℕ) : List (ℕ × ℕ) :=
  (List.range gridDim).flatMap fun b => (List.range blockDim).map fun t => (b, t)

/-- Run the threads of a launch one after the other in the order `sched`. -/
def runThreads (blockDim : ℕ) (sched : List (ℕ × ℕ)) (particles : List Particle) :
    List Particle :=
  sched.foldl (fun buf bt => updateParticles bt.1 blockDim bt.2 buf) particles

/-- The launch `updateParticles<<<(NUM_PARTICLES + 255) / 256, 256>>>()` of `idle`,
followed to completion, with the threads taken in row-major order. -/
def launchUpdate (particles : List Particle) : List Particle :=
  runThreads 256 (gridThreads ((NUM_PARTICLES + 255) / 256) 256) particles

/-- The loop of `initParticles` with `n` slots still to fill; `calls` counts the calls of
`rand()` made so far and `rand k` is the non-negative value returned by call number `k`.
The two calls in the braced initialiser are evaluated left to right; `rand() % 200 - 100`
is `int` arithmetic, converted to `float` for the division by `100.0f`. -/
def initLoop (rand : ℕ → ℕ) : ℕ → ℕ → List Particle
  | 0, _ => []
  | n + 1, calls =>
    { position :=
        ⟨F32.div (F32.ofInt ((rand calls : ℤ) % 200 - 100)) (F32.lit 100),
         F32.div (F32.ofInt ((rand (calls + 1) : ℤ) % 200)) (F32.lit 100)⟩,
      velocity := ⟨F32.lit 0, F32.lit 0⟩ } :: initLoop rand n (calls + 2)

/-- `initParticles()`: the contents of `particles` after the loop. -/
def initParticles (rand : ℕ → ℕ) : List Particle := initLoop rand NUM_PARTICLES 0

/-- Status returned by `cudaDeviceSynchronize()`. -/
inductive cudaError_t
  | cudaSuccess
  | cudaErrorLaunchFailure
  deriving DecidableEq

/-- Calls a frame iteration can make to the CUDA runtime, to GLUT and to the C library,
with what they were given or returned. -/
inductive Call
  | kernelLaunch (gridDim blockDim : ℕ)
  | cudaDeviceSynchronize (status : cudaError_t)
  | glutPostRedisplay
  | exit (code : ℤ)
  deriving DecidableEq

/-- What one call of `idle` leaves behind: the particle array and the calls it made, in
program order. -/
structure FrameResult where
  particles : List Particle
  calls : List Call
  deriving DecidableEq

/-- `idle()`: launch the kernel, wait for the device, post a redisplay.  The status
`sync` returned by `cudaDeviceSynchronize()` is discarded by the source; `afterFault` is
the array left behind by a pass that faulted. -/
def idle (sync : cudaError_t) (afterFault : List Particle) (particles : List Particle) :
    FrameResult :=
  let particles :=
    match sync with
    | .cudaSuccess => launchUpdate particles
    | .cudaErrorLaunchFailure => afterFault
  { particles := particles,
    calls := [.kernelLaunch ((NUM_PARTICLES + 255) / 256) 256, .cudaDeviceSynchronize sync,
      .glutPostRedisplay] }

/-- Range invariant of the vertical motion: the vertical velocity and height are finite,
the speed is at most `2 ^ 22` and the height lies between the floor and `2 ^ 41`. -/
def InRange (p : Particle) : Prop :=
  ∃ v y : ℚ, p.velocity.y = F32.fin v ∧ p.position.y = F32.fin y ∧
    -(2 ^ 22) ≤ v ∧ v ≤ 2 ^ 22 ∧ -1 ≤ y ∧ y ≤ 2 ^ 41

/-- Global index of the thread `bt = (blockIdx, threadIdx)` of a launch with blocks of
`blockDim` threads. -/
def threadIndex (blockDim : ℕ) (bt : ℕ × ℕ) : ℕ := bt.1 * blockDim + bt.2

/-- The specification's `velocity.y_raw`, written as the specification writes it:
`velocity.y_old - 9.8*DT` with `DT = 0.01`, the product `9.8*DT` being the rounded
constant and the difference a binary32 subtraction. -/
def specVelocityYRaw (p : Particle) : F32 :=
  F32.sub p.velocity.y (F32.mul (F32.lit (98 / 10)) (F32.lit (1 / 100)))

/-- The specification's `position.y_raw`: `position.y_old + velocity.y_raw*DT`, the sum
a fused multiply-add as in the kernel. -/
def specPositionYRaw (p : Particle) : F32 :=
  F32.fma (specVelocityYRaw p) (F32.lit (1 / 100)) p.position.y

/-- Vertical velocity of the particle at rest on the floor, `11691855 / 2 ^ 28`, about
`0.0435556`: gravity takes it to about `-0.0544444` and the bounce brings it back. -/
def restVelocityY : ℚ := 11691855 / 268435456

/-- The states the step leaves unchanged, as conditions on the arithmetic: the horizontal
position is not moved (`position.x + velocity.x*DT` rounds to `position.x`), and either
the particle rests on the floor, or the bounce branch is not taken and rounding absorbs
both the gravity increment and the vertical displacement. -/
def Stationary (p : Particle) : Prop :=
  F32.fma p.velocity.x DT p.position.x = p.position.x ∧
  ((p.position.y = F32.lit (-1) ∧ p.velocity.y = F32.fin restVelocityY) ∨
   (F32.lt (specPositionYRaw p) (F32.lit (-1)) = false ∧
     specVelocityYRaw p = p.velocity.y ∧ specPositionYRaw p = p.position.y))

instance : DecidablePred Stationary := fun p => by
  unfold Stationary
  infer_instance

/-! ## Rounding: basic facts -/

theorem pow2_eq (e : ℤ) : pow2 e = (2 : ℚ) ^ e := by
  unfold pow2
  split_ifs with h
  · obtain ⟨n, rfl⟩ := Int.eq_ofNat_of_zero_le h
    simp
  · push_neg at h
    obtain ⟨n, hn⟩ := Int.eq_ofNat_of_zero_le (by omega : 0 ≤ -e)
    have he : e = -(n : ℤ) := by omega
    subst he
    simp

theorem pow2_pos (e : ℤ) : 0 < pow2 e := by
  rw [pow2_eq]; positivity

theorem pow2_le {e e' : ℤ} (h : e ≤ e') : pow2 e ≤ pow2 e' := by
  rw [pow2_eq, pow2_eq]
  exact zpow_le_zpow_right₀ (by norm_num) h

theorem pow2_add (e e' : ℤ) : pow2 (e + e') = pow2 e * pow2 e' := by
  rw [pow2_eq, pow2_eq, pow2_eq, zpow_add₀ (by norm_num)]

theorem expOf_ge (a : ℚ) (k : ℕ) (e : ℤ) : e ≤ expOf a k e := by
  induction k generalizing e with
  | zero => simp [expOf]
  | succ k ih =>
    unfold expOf
    split_ifs
    · exact le_refl e
    · have := ih (e + 1); omega

theorem expOf_le (a : ℚ) (k : ℕ) (e : ℤ) : expOf a k e ≤ e + k := by
  induction k generalizing e with
  | zero => simp [expOf]
  | succ k ih =>
    unfold expOf
    split_ifs
    · push_cast; omega
    · have := ih (e + 1); push_cast; omega

theorem expOf_lt_pow (a : ℚ) (k : ℕ) (e : ℤ) (h : expOf a k e < e + k) :
    a < pow2 (expOf a k e + 24) := by
  induction k generalizing e with
  | zero => simp [expOf] at h
  | succ k ih =>
    unfold expOf at h ⊢
    split_ifs at h ⊢ with hlt
    · exact hlt
    · apply ih (e + 1)
      push_cast at h; omega

theorem expOf_ge_pow (a : ℚ) (k : ℕ) (e : ℤ) (h : e < expOf a k e) :
    pow2 (expOf a k e + 23) ≤ a := by
  induction k generalizing e with
  | zero => simp [expOf] at h
  | succ k ih =>
    unfold expOf at h ⊢
    split_ifs at h ⊢ with hlt
    · omega
    · rcases eq_or_lt_of_le (expOf_ge a k (e + 1)) with heq | hlt2
      · rw [← heq]
        have : e + 1 + 23 = e + 24 := by ring
        rw [this]
        exact not_lt.mp hlt
      · exact ih (e + 1) hlt2

theorem expOf_le_of_lt (a : ℚ) (k : ℕ) (e e' : ℤ) (h : a < pow2 (e' + 24)) (he : e ≤ e') :
    expOf a k e ≤ e' := by
  by_contra hcon
  push_neg at hcon
  have h1 : e < expOf a k e := by omega
  have h2 := expOf_ge_pow a k e h1
  have h3 : pow2 (e' + 24) ≤ pow2 (expOf a k e + 23) := pow2_le (by omega)
  linarith

theorem roundHalfEven_ge_floor (q : ℚ) : ⌊q⌋ ≤ roundHalfEven q := by
  unfold roundHalfEven
  simp only
  split_ifs <;> omega

theorem roundHalfEven_le_floor (q : ℚ) : roundHalfEven q ≤ ⌊q⌋ + 1 := by
  unfold roundHalfEven
  simp only
  split_ifs <;> omega

theorem roundHalfEven_intCast (n : ℤ) : roundHalfEven (n : ℚ) = n := by
  unfold roundHalfEven
  simp

theorem roundHalfEven_mono {q q' : ℚ} (h : q ≤ q') : roundHalfEven q ≤ roundHalfEven q' := by
  rcases eq_or_lt_of_le (Int.floor_mono h) with heq | hlt
  · unfold roundHalfEven
    simp only
    rw [← heq]
    split_ifs <;> first | omega | (exfalso; linarith)
  · calc roundHalfEven q ≤ ⌊q⌋ + 1 := roundHalfEven_le_floor q
      _ ≤ ⌊q'⌋ := hlt
      _ ≤ roundHalfEven q' := roundHalfEven_ge_floor q'

/-! ## Rounding of magnitudes -/

theorem rndAbs_zero : rndAbs 0 = 0 := by
  unfold rndAbs
  simp [roundHalfEven]

theorem rndAbs_nonneg {a : ℚ} (h : 0 ≤ a) : 0 ≤ rndAbs a := by
  unfold rndAbs
  simp only
  have h1 : 0 ≤ a / pow2 (expOf a 254 (-149)) := div_nonneg h (pow2_pos _).le
  have h2 : (0 : ℤ) ≤ roundHalfEven (a / pow2 (expOf a 254 (-149))) := by
    have := roundHalfEven_mono h1
    rwa [show ((0 : ℚ)) = ((0 : ℤ) : ℚ) by simp, roundHalfEven_intCast] at this
  exact mul_nonneg (by exact_mod_cast h2) (pow2_pos _).le

theorem expOf_mono {a b : ℚ} (h : a ≤ b) : expOf a 254 (-149) ≤ expOf b 254 (-149) := by
  by_contra hcon
  push_neg at hcon
  have h1 : -149 < expOf a 254 (-149) := lt_of_le_of_lt (expOf_ge b 254 (-149)) hcon
  have h2 := expOf_ge_pow a 254 (-149) h1
  have h3 : expOf b 254 (-149) < -149 + (254 : ℕ) :=
    lt_of_lt_of_le hcon (expOf_le a 254 (-149))
  have h4 := expOf_lt_pow b 254 (-149) h3
  have h5 : pow2 (expOf b 254 (-149) + 24) ≤ pow2 (expOf a 254 (-149) + 23) :=
    pow2_le (by omega)
  linarith

/-- A magnitude below `2 ^ (e + 24)` rounds to at most `2 ^ (e + 24)` when `e` is its
exponent. -/
theorem rndAbs_le_pow {a : ℚ} (h : a < pow2 (expOf a 254 (-149) + 24)) :
    rndAbs a ≤ pow2 (expOf a 254 (-149) + 24) := by
  unfold rndAbs
  simp only
  set e := expOf a 254 (-149) with he
  have hp := pow2_pos e
  have h1 : a / pow2 e ≤ ((2 ^ 24 : ℤ) : ℚ) := by
    rw [div_le_iff₀ hp]
    have : pow2 (e + 24) = pow2 e * pow2 24 := pow2_add e 24
    have h24 : pow2 24 = ((2 ^ 24 : ℤ) : ℚ) := by rw [pow2_eq]; norm_num
    rw [this, h24] at h
    linarith
  have h2 := roundHalfEven_mono h1
  rw [roundHalfEven_intCast] at h2
  have h3 : ((roundHalfEven (a / pow2 e) : ℤ) : ℚ) ≤ ((2 ^ 24 : ℤ) : ℚ) := by exact_mod_cast h2
  have h24 : pow2 24 = ((2 ^ 24 : ℤ) : ℚ) := by rw [pow2_eq]; norm_num
  calc ((roundHalfEven (a / pow2 e) : ℤ) : ℚ) * pow2 e
      ≤ ((2 ^ 24 : ℤ) : ℚ) * pow2 e := mul_le_mul_of_nonneg_right h3 hp.le
    _ = pow2 (e + 24) := by rw [pow2_add, h24]; ring

theorem rndAbs_ge_pow {a : ℚ} (h : pow2 (expOf a 254 (-149) + 23) ≤ a) :
    pow2 (expOf a 254 (-149) + 23) ≤ rndAbs a := by
  unfold rndAbs
  simp only
  set e := expOf a 254 (-149) with he
  have hp := pow2_pos e
  have h23 : pow2 23 = ((2 ^ 23 : ℤ) : ℚ) := by rw [pow2_eq]; norm_num
  have h1 : ((2 ^ 23 : ℤ) : ℚ) ≤ a / pow2 e := by
    rw [le_div_iff₀ hp]
    have : pow2 (e + 23) = pow2 e * pow2 23 := pow2_add e 23
    rw [this, h23] at h
    linarith
  have h2 := roundHalfEven_mono h1
  rw [roundHalfEven_intCast] at h2
  have h3 : ((2 ^ 23 : ℤ) : ℚ) ≤ ((roundHalfEven (a / pow2 e) : ℤ) : ℚ) := by exact_mod_cast h2
  calc pow2 (e + 23) = ((2 ^ 23 : ℤ) : ℚ) * pow2 e := by rw [pow2_add, h23]; ring
    _ ≤ ((roundHalfEven (a / pow2 e) : ℤ) : ℚ) * pow2 e := mul_le_mul_of_nonneg_right h3 hp.le

/-- Rounding of magnitudes is monotone. -/
theorem rndAbs_mono {a b : ℚ} (h : a ≤ b) : rndAbs a ≤ rndAbs b := by
  rcases eq_or_lt_of_le (expOf_mono h) with heq | hlt
  · unfold rndAbs
    simp only
    rw [← heq]
    have hp := pow2_pos (expOf a 254 (-149))
    have h1 : a / pow2 (expOf a 254 (-149)) ≤ b / pow2 (expOf a 254 (-149)) :=
      div_le_div_of_nonneg_right h hp.le
    have h2 := roundHalfEven_mono h1
    exact mul_le_mul_of_nonneg_right (by exact_mod_cast h2) hp.le
  · have ha : expOf a 254 (-149) < -149 + (254 : ℕ) :=
      lt_of_lt_of_le hlt (expOf_le b 254 (-149))
    have hb : -149 < expOf b 254 (-149) := lt_of_le_of_lt (expOf_ge a 254 (-149)) hlt
    have h1 := rndAbs_le_pow (expOf_lt_pow a 254 (-149) ha)
    have h2 := rndAbs_ge_pow (expOf_ge_pow b 254 (-149) hb)
    have h3 : pow2 (expOf a 254 (-149) + 24) ≤ pow2 (expOf b 254 (-149) + 23) :=
      pow2_le (by omega)
    linarith

/-- A magnitude on the binary32 grid is left unchanged by rounding. -/
theorem rndAbs_grid (m : ℕ) (e : ℤ) (hm : m ≤ 2 ^ 24) (he : -149 ≤ e) :
    rndAbs ((m : ℚ) * pow2 e) = (m : ℚ) * pow2 e := by
  -- reduce to a mantissa strictly below 2 ^ 24
  have key : ∀ (m : ℕ) (e : ℤ), m < 2 ^ 24 → -149 ≤ e →
      rndAbs ((m : ℚ) * pow2 e) = (m : ℚ) * pow2 e := by
    intro m e hm he
    set a := (m : ℚ) * pow2 e with ha
    have hlt : a < pow2 (e + 24) := by
      rw [pow2_add, ha]
      have h24 : pow2 24 = ((2 ^ 24 : ℕ) : ℚ) := by rw [pow2_eq]; norm_num
      rw [h24, mul_comm (pow2 e)]
      exact mul_lt_mul_of_pos_right (by exact_mod_cast hm) (pow2_pos e)
    have hE : expOf a 254 (-149) ≤ e := expOf_le_of_lt a 254 (-149) e hlt he
    unfold rndAbs
    simp only
    set E := expOf a 254 (-149) with hEdef
    obtain ⟨d, hd⟩ := Int.eq_ofNat_of_zero_le (by omega : 0 ≤ e - E)
    have hsplit : pow2 e = pow2 E * ((2 ^ d : ℕ) : ℚ) := by
      have : e = E + (d : ℤ) := by omega
      rw [this, pow2_add, pow2_eq (d : ℤ)]
      simp
    have hq : a / pow2 E = (((m * 2 ^ d : ℕ) : ℤ) : ℚ) := by
      rw [ha, hsplit, div_eq_iff (pow2_pos E).ne']
      push_cast
      ring
    rw [hq, roundHalfEven_intCast, ha, hsplit]
    push_cast
    ring
  rcases Nat.lt_or_ge m (2 ^ 24) with h | h
  · exact key m e h he
  · have hm' : m = 2 ^ 24 := le_antisymm hm h
    have h2 := key (2 ^ 23) (e + 1) (by norm_num) (by omega)
    have heq : ((m : ℕ) : ℚ) * pow2 e = ((2 ^ 23 : ℕ) : ℚ) * pow2 (e + 1) := by
      rw [hm', pow2_add, pow2_eq 1]
      push_cast
      ring
    rw [heq]
    exact h2

/-- The result of rounding a magnitude below `2 ^ 129` lies on the binary32 grid. -/
theorem rndAbs_on_grid {a : ℚ} (h0 : 0 ≤ a) (h : a < pow2 129) :
    ∃ m : ℕ, m ≤ 2 ^ 24 ∧ rndAbs a = (m : ℚ) * pow2 (expOf a 254 (-149)) := by
  have hE : a < pow2 (expOf a 254 (-149) + 24) := by
    rcases eq_or_lt_of_le (expOf_le a 254 (-149)) with heq | hlt
    · have : expOf a 254 (-149) + 24 = 129 := by rw [heq]; norm_num
      rw [this]; exact h
    · exact expOf_lt_pow a 254 (-149) hlt
  have hp := pow2_pos (expOf a 254 (-149))
  have h1 : 0 ≤ a / pow2 (expOf a 254 (-149)) := div_nonneg h0 hp.le
  have h2 : (0 : ℤ) ≤ roundHalfEven (a / pow2 (expOf a 254 (-149))) := by
    have := roundHalfEven_mono h1
    rwa [show ((0 : ℚ)) = ((0 : ℤ) : ℚ) by simp, roundHalfEven_intCast] at this
  obtain ⟨m, hm⟩ := Int.eq_ofNat_of_zero_le h2
  refine ⟨m, ?_, ?_⟩
  · have h3 : a / pow2 (expOf a 254 (-149)) ≤ ((2 ^ 24 : ℤ) : ℚ) := by
      rw [div_le_iff₀ hp]
      have h24 : pow2 24 = ((2 ^ 24 : ℤ) : ℚ) := by rw [pow2_eq]; norm_num
      rw [pow2_add, h24] at hE
      linarith
    have h4 := roundHalfEven_mono h3
    rw [roundHalfEven_intCast, hm] at h4
    exact_mod_cast h4
  · unfold rndAbs
    simp only
    rw [hm]
    simp

theorem rndAbs_idem {a : ℚ} (h0 : 0 ≤ a) (h : a < pow2 129) : rndAbs (rndAbs a) = rndAbs a := by
  obtain ⟨m, hm, heq⟩ := rndAbs_on_grid h0 h
  rw [heq]
  exact rndAbs_grid m _ hm (expOf_ge a 254 (-149))

/-! ## Signed rounding and the binary32 operations -/

theorem rndS_zero : rndS 0 = 0 := by
  simp [rndS, rndAbs_zero]

theorem rndS_neg (x : ℚ) : rndS (-x) = -rndS x := by
  unfold rndS
  rcases lt_trichotomy x 0 with h | h | h
  · have h1 : ¬ (-x < 0) := by linarith
    simp [h, h1]
  · subst h; simp [rndAbs_zero]
  · have h1 : -x < 0 := by linarith
    have h2 : ¬ (x < 0) := by linarith
    simp [h1, h2]

/-- Rounding to the binary32 grid is monotone. -/
theorem rndS_mono {x y : ℚ} (h : x ≤ y) : rndS x ≤ rndS y := by
  unfold rndS
  split_ifs with hx hy hy
  · have := rndAbs_mono (show -y ≤ -x by linarith)
    linarith
  · have h1 := rndAbs_nonneg (show (0 : ℚ) ≤ -x by linarith)
    have h2 := rndAbs_nonneg (show (0 : ℚ) ≤ y by linarith)
    linarith
  · exfalso; linarith
  · exact rndAbs_mono h

/-- A signed value on the binary32 grid is left unchanged by rounding. -/
theorem rndS_grid (m : ℤ) (e : ℤ) (hm : |m| ≤ 2 ^ 24) (he : -149 ≤ e) :
    rndS ((m : ℚ) * pow2 e) = (m : ℚ) * pow2 e := by
  have hp := pow2_pos e
  rcases le_or_lt 0 m with h0 | h0
  · obtain ⟨n, rfl⟩ := Int.eq_ofNat_of_zero_le h0
    have hn : n ≤ 2 ^ 24 := by
      rw [abs_of_nonneg h0] at hm
      exact_mod_cast hm
    have hx : ¬ (((n : ℤ) : ℚ) * pow2 e < 0) := by
      push_neg
      exact mul_nonneg (by exact_mod_cast h0) hp.le
    unfold rndS
    rw [if_neg hx]
    simpa using rndAbs_grid n e hn he
  · obtain ⟨n, hn⟩ := Int.eq_ofNat_of_zero_le (show 0 ≤ -m by omega)
    have hm' : m = -(n : ℤ) := by omega
    subst hm'
    have hn2 : n ≤ 2 ^ 24 := by
      rw [abs_neg, abs_of_nonneg (by omega : (0 : ℤ) ≤ (n : ℤ))] at hm
      exact_mod_cast hm
    have hx : ((-(n : ℤ) : ℤ) : ℚ) * pow2 e < 0 := by
      apply mul_neg_of_neg_of_pos _ hp
      exact_mod_cast h0
    unfold rndS
    rw [if_pos hx]
    have := rndAbs_grid n e hn2 he
    push_cast
    rw [show -(-(n : ℚ) * pow2 e) = (n : ℚ) * pow2 e by ring, this]
    ring

theorem pow2_129_eq : pow2 129 = 2 * pow2 128 := by
  rw [show (129 : ℤ) = 1 + 128 by norm_num, pow2_add, pow2_eq 1]
  norm_num

/-- Rounding is idempotent below the overflow threshold. -/
theorem rndS_idem {x : ℚ} (h1 : -pow2 128 < rndS x) (h2 : rndS x < pow2 128) :
    rndS (rndS x) = rndS x := by
  have hpos := pow2_pos 128
  have habs : ∀ a : ℚ, 0 ≤ a → rndAbs a < pow2 128 → rndAbs (rndAbs a) = rndAbs a := by
    intro a ha hlt
    apply rndAbs_idem ha
    by_contra hcon
    push_neg at hcon
    have hmono := rndAbs_mono hcon
    have hg := rndAbs_grid 1 129 (by norm_num) (by norm_num)
    simp only [Nat.cast_one, one_mul] at hg
    rw [hg, pow2_129_eq] at hmono
    linarith
  rcases lt_or_le x 0 with hx | hx
  · have hr : rndS x = -rndAbs (-x) := by simp [rndS, hx]
    have hnn := rndAbs_nonneg (show (0 : ℚ) ≤ -x by linarith)
    have hlt : rndAbs (-x) < pow2 128 := by rw [hr] at h1; linarith
    rw [hr, rndS_neg]
    have : rndS (rndAbs (-x)) = rndAbs (rndAbs (-x)) := by
      simp [rndS, not_lt.mpr hnn]
    rw [this, habs (-x) (by linarith) hlt]
  · have hr : rndS x = rndAbs x := by simp [rndS, not_lt.mpr hx]
    have hnn := rndAbs_nonneg hx
    rw [hr] at h2 ⊢
    have : rndS (rndAbs x) = rndAbs (rndAbs x) := by
      simp [rndS, not_lt.mpr hnn]
    rw [this, habs x hx h2]

theorem rnd_eq_fin {x : ℚ} (h1 : -pow2 128 < rndS x) (h2 : rndS x < pow2 128) :
    rnd x = F32.fin (rndS x) := by
  unfold rnd
  simp only
  rw [if_neg (not_le.mpr h2), if_neg (not_le.mpr h1)]

theorem rnd_fin_inv {x q : ℚ} (h : rnd x = F32.fin q) :
    q = rndS x ∧ -pow2 128 < q ∧ q < pow2 128 := by
  unfold rnd at h
  simp only at h
  split_ifs at h with h1 h2
  injection h with h
  subst h
  exact ⟨rfl, not_le.mp h2, not_le.mp h1⟩

/-- Every result of a rounding is a binary32 value. -/
theorem rnd_wf (x : ℚ) : (rnd x).wf := by
  cases hx : rnd x with
  | nan => trivial
  | ninf => trivial
  | pinf => trivial
  | fin q =>
    obtain ⟨hq, h1, h2⟩ := rnd_fin_inv hx
    show rnd q = F32.fin q
    subst hq
    rw [rnd_eq_fin (by rw [rndS_idem h1 h2]; exact h1) (by rw [rndS_idem h1 h2]; exact h2),
      rndS_idem h1 h2]

/-- A finite binary32 value is a fixed point of the rounding and lies strictly inside
the overflow thresholds. -/
theorem wf_fin {q : ℚ} (h : (F32.fin q).wf) : rndS q = q ∧ -pow2 128 < q ∧ q < pow2 128 := by
  have h' : rnd q = F32.fin q := h
  obtain ⟨h1, h2, h3⟩ := rnd_fin_inv h'
  exact ⟨h1.symm, h2, h3⟩

/-- Rounding between two exact values whose roundings are finite gives a finite value
between those roundings. -/
theorem rnd_between (x lo hi : ℚ) (hlo : lo ≤ x) (hhi : x ≤ hi)
    (h1 : -pow2 128 < rndS lo) (h2 : rndS hi < pow2 128) :
    rnd x = F32.fin (rndS x) ∧ rndS lo ≤ rndS x ∧ rndS x ≤ rndS hi := by
  have hl := rndS_mono hlo
  have hh := rndS_mono hhi
  exact ⟨rnd_eq_fin (by linarith) (by linarith), hl, hh⟩

/-! ## The per-particle step -/

theorem DT_eq : DT = F32.fin (5368709 / 536870912) := by decide!

theorem accelY_DT :
    F32.mul (make_float2 (F32.lit 0) (F32.neg (F32.lit (98 / 10)))).y DT
      = F32.fin (-13153337 / 134217728) := by decide!

theorem accelX_DT :
    F32.mul (make_float2 (F32.lit 0) (F32.neg (F32.lit (98 / 10)))).x DT = F32.fin 0 := by
  decide!

theorem floor_eq : F32.neg (F32.lit 1) = F32.fin (-1) := by decide!

theorem restitution_eq : F32.neg (F32.lit (8 / 10)) = F32.fin (-13421773 / 16777216) := by
  decide!

/-- The step with its constants evaluated. -/
theorem stepParticle_unfold (p : Particle) :
    stepParticle p =
      if F32.lt (F32.fma (F32.add p.velocity.y (F32.fin (-13153337 / 134217728)))
          (F32.fin (5368709 / 536870912)) p.position.y) (F32.fin (-1)) then
        { position := ⟨F32.fma (F32.add p.velocity.x (F32.fin 0))
            (F32.fin (5368709 / 536870912)) p.position.x, F32.fin (-1)⟩,
          velocity := ⟨F32.add p.velocity.x (F32.fin 0),
            F32.mul (F32.add p.velocity.y (F32.fin (-13153337 / 134217728)))
              (F32.fin (-13421773 / 16777216))⟩ }
      else
        { position := ⟨F32.fma (F32.add p.velocity.x (F32.fin 0))
            (F32.fin (5368709 / 536870912)) p.position.x,
            F32.fma (F32.add p.velocity.y (F32.fin (-13153337 / 134217728)))
              (F32.fin (5368709 / 536870912)) p.position.y⟩,
          velocity := ⟨F32.add p.velocity.x (F32.fin 0),
            F32.add p.velocity.y (F32.fin (-13153337 / 134217728))⟩ } := by
  unfold stepParticle
  simp only [accelY_DT, accelX_DT, floor_eq, restitution_eq]
  rw [DT_eq]

/-! ## Range invariant of the vertical motion -/

theorem rndS_vel_lo : rndS (-(2 ^ 22) + -13153337 / 134217728) = -(2 ^ 22) := by decide!

theorem rndS_vel_hi : rndS (2 ^ 22 + -13153337 / 134217728) = 2 ^ 22 := by decide!

theorem rndS_pos_hi : rndS (2 ^ 41 + 5368709 / 128) = 2 ^ 41 := by decide!

theorem rndS_pos_lo : rndS (-1 + -(5368709 / 128)) = -(10737674 / 256) := by decide!

theorem rndS_bounce_hi : rndS (-(2 ^ 22) * (-13421773 / 16777216)) = 13421773 / 4 := by
  decide!

theorem rndS_bounce_lo : rndS (2 ^ 22 * (-13421773 / 16777216)) = -(13421773 / 4) := by
  decide!

theorem pow2_128_large : (2 : ℚ) ^ 42 < pow2 128 := by
  rw [pow2_eq]
  norm_num

/-- The per-particle step keeps the vertical motion in range. -/
theorem stepParticle_inRange (p : Particle) (h : InRange p) : InRange (stepParticle p) := by
  obtain ⟨v, y, hv, hy, hv1, hv2, hy1, hy2⟩ := h
  have hbig := pow2_128_large
  -- gravity
  obtain ⟨e1, l1, u1⟩ := rnd_between (v + -13153337 / 134217728)
    (-(2 ^ 22) + -13153337 / 134217728) (2 ^ 22 + -13153337 / 134217728)
    (by linarith) (by linarith) (by rw [rndS_vel_lo]; linarith) (by rw [rndS_vel_hi]; linarith)
  rw [rndS_vel_lo] at l1
  rw [rndS_vel_hi] at u1
  set v' := rndS (v + -13153337 / 134217728) with hv'
  -- position: one rounding of the exact sum
  have hd1 : -(5368709 / 128) ≤ v' * (5368709 / 536870912) := by nlinarith
  have hd2 : v' * (5368709 / 536870912) ≤ 5368709 / 128 := by nlinarith
  obtain ⟨e3, l3, u3⟩ := rnd_between (v' * (5368709 / 536870912) + y)
    (-1 + -(5368709 / 128)) (2 ^ 41 + 5368709 / 128)
    (by linarith) (by linarith) (by rw [rndS_pos_lo]; linarith) (by rw [rndS_pos_hi]; linarith)
  rw [rndS_pos_hi] at u3
  set y' := rndS (v' * (5368709 / 536870912) + y) with hy'
  -- bounce
  obtain ⟨e4, l4, u4⟩ := rnd_between (v' * (-13421773 / 16777216))
    (2 ^ 22 * (-13421773 / 16777216)) (-(2 ^ 22) * (-13421773 / 16777216))
    (by nlinarith) (by nlinarith) (by rw [rndS_bounce_lo]; linarith)
    (by rw [rndS_bounce_hi]; linarith)
  rw [rndS_bounce_lo] at l4
  rw [rndS_bounce_hi] at u4
  rw [stepParticle_unfold, hv, hy]
  simp only [F32.add, F32.mul, F32.fma, e1, e3, e4, F32.lt]
  by_cases hb : y' < -1
  · rw [if_pos (by simpa using hb)]
    exact ⟨_, _, rfl, rfl, by linarith, by linarith, by norm_num, by norm_num⟩
  · rw [if_neg (by simpa using hb)]
    exact ⟨_, _, rfl, rfl, l1, u1, not_lt.mp hb, u3⟩

/-! ## Threads, schedules and launches -/

theorem updateParticles_length (b bd t : ℕ) (buf : List Particle) :
    (updateParticles b bd t buf).length = buf.length := by
  unfold updateParticles
  simp only
  split_ifs
  · rfl
  · split
    · simp
    · rfl

/-- Effect of one thread on slot `j` of the array. -/
theorem updateParticles_getElem? (b bd t : ℕ) (buf : List Particle) (j : ℕ) :
    (updateParticles b bd t buf)[j]? =
      if b * bd + t = j ∧ j < NUM_PARTICLES then buf[j]?.map stepParticle else buf[j]? := by
  unfold updateParticles
  simp only
  by_cases hN : b * bd + t ≥ NUM_PARTICLES
  · rw [if_pos hN, if_neg]
    rintro ⟨h1, h2⟩
    omega
  · rw [if_neg hN]
    by_cases hj : b * bd + t = j
    · subst hj
      rw [if_pos ⟨rfl, by omega⟩]
      cases hget : buf[b * bd + t]? with
      | none => simp [hget]
      | some p =>
        simp only [Option.map_some']
        rw [List.getElem?_set]
        have hlt : b * bd + t < buf.length := by
          rcases List.getElem?_eq_some.mp hget with ⟨h, _⟩
          exact h
        simp [hlt]
    · rw [if_neg (fun h => hj h.1)]
      cases hget : buf[b * bd + t]? with
      | none => rfl
      | some p => simp [List.getElem?_set_ne hj]

theorem runThreads_length (bd : ℕ) (sched : List (ℕ × ℕ)) (buf : List Particle) :
    (runThreads bd sched buf).length = buf.length := by
  induction sched generalizing buf with
  | nil => rfl
  | cons bt rest ih =>
    show (runThreads bd rest (updateParticles bt.1 bd bt.2 buf)).length = buf.length
    rw [ih, updateParticles_length]

/-- After the threads of a schedule have run, slot `j` has been stepped once for every
thread of the schedule whose index is `j`, provided `j < NUM_PARTICLES`. -/
theorem runThreads_getElem? (bd : ℕ) (sched : List (ℕ × ℕ)) (buf : List Particle) (j : ℕ) :
    (runThreads bd sched buf)[j]? =
      buf[j]?.map (stepParticle^[if j < NUM_PARTICLES then
        (sched.map (threadIndex bd)).count j else 0]) := by
  induction sched generalizing buf with
  | nil => simp [runThreads]
  | cons bt rest ih =>
    show (runThreads bd rest (updateParticles bt.1 bd bt.2 buf))[j]? = _
    rw [ih, updateParticles_getElem?]
    by_cases hj : j < NUM_PARTICLES
    · simp only [hj, if_true, and_true, List.map_cons, List.count_cons]
      by_cases hidx : bt.1 * bd + bt.2 = j
      · have h1 : (threadIndex bd bt == j) = true := by simpa [threadIndex] using hidx
        rw [if_pos hidx, h1, if_pos rfl, Function.iterate_succ, Option.map_map]
      · have h1 : (threadIndex bd bt == j) = false := by simpa [threadIndex] using hidx
        rw [if_neg hidx, h1]
        simp
    · simp [hj]

theorem gridThreads_index (g bd : ℕ) :
    (gridThreads g bd).map (threadIndex bd) = List.range (g * bd) := by
  induction g with
  | zero => simp [gridThreads]
  | succ g ih =>
    have hsplit : gridThreads (g + 1) bd
        = gridThreads g bd ++ (List.range bd).map fun t => (g, t) := by
      unfold gridThreads
      rw [List.range_succ, List.flatMap_append]
      simp
    rw [hsplit, List.map_append, ih, Nat.succ_mul, List.range_add, List.map_map]
    rfl

theorem mem_gridThreads {g bd : ℕ} {bt : ℕ × ℕ} :
    bt ∈ gridThreads g bd ↔ bt.1 < g ∧ bt.2 < bd := by
  obtain ⟨b, t⟩ := bt
  simp only [gridThreads, List.mem_flatMap, List.mem_range, List.mem_map, Prod.mk.injEq]
  constructor
  · rintro ⟨b', hb, t', ht, rfl, rfl⟩
    exact ⟨hb, ht⟩
  · rintro ⟨hb, ht⟩
    exact ⟨b, hb, t, ht, rfl, rfl⟩

theorem count_range (n j : ℕ) : (List.range n).count j = if j < n then 1 else 0 := by
  split_ifs with h
  · exact List.count_eq_one_of_mem (List.nodup_range n) (List.mem_range.mpr h)
  · exact List.count_eq_zero_of_not_mem (fun hm => h (List.mem_range.mp hm))

/-- Whatever the order of the threads, a launch covering `NUM_PARTICLES` slots maps the
per-particle step over the array. -/
theorem runThreads_perm (g bd : ℕ) (hcover : NUM_PARTICLES ≤ g * bd) (sched : List (ℕ × ℕ))
    (hperm : sched.Perm (gridThreads g bd)) (buf : List Particle)
    (hlen : buf.length = NUM_PARTICLES) :
    runThreads bd sched buf = buf.map stepParticle := by
  apply List.ext_getElem?
  intro j
  rw [runThreads_getElem?, (hperm.map (threadIndex bd)).count_eq, gridThreads_index,
    count_range, List.getElem?_map]
  by_cases hj : j < NUM_PARTICLES
  · rw [if_pos hj, if_pos (by omega)]
    rfl
  · have : buf[j]? = none := List.getElem?_eq_none (by omega)
    simp [this]

theorem launchUpdate_eq_map (buf : List Particle) (hlen : buf.length = NUM_PARTICLES) :
    launchUpdate buf = buf.map stepParticle :=
  runThreads_perm _ 256 (by decide) _ (List.Perm.refl _) buf hlen

theorem launchUpdate_iterate (k : ℕ) (buf : List Particle)
    (hlen : buf.length = NUM_PARTICLES) :
    launchUpdate^[k] buf = buf.map (stepParticle^[k]) := by
  induction k generalizing buf with
  | zero => simp
  | succ k ih =>
    rw [Function.iterate_succ_apply, launchUpdate_eq_map buf hlen,
      ih _ (by simpa using hlen), List.map_map]
    rfl

/-! ## Initialisation -/

theorem initLoop_length (rand : ℕ → ℕ) (n calls : ℕ) : (initLoop rand n calls).length = n := by
  induction n generalizing calls with
  | zero => rfl
  | succ n ih => simp [initLoop, ih]

theorem initLoop_getElem? (rand : ℕ → ℕ) (n calls i : ℕ) (h : i < n) :
    (initLoop rand n calls)[i]? = some
      { position :=
          ⟨F32.div (F32.ofInt ((rand (calls + 2 * i) : ℤ) % 200 - 100)) (F32.lit 100),
           F32.div (F32.ofInt ((rand (calls + 2 * i + 1) : ℤ) % 200)) (F32.lit 100)⟩,
        velocity := ⟨F32.lit 0, F32.lit 0⟩ } := by
  induction n generalizing calls i with
  | zero => omega
  | succ n ih =>
    cases i with
    | zero => simp [initLoop]
    | succ i =>
      simp only [initLoop, List.getElem?_cons_succ]
      rw [ih (calls + 2) i (by omega)]
      have e1 : calls + 2 + 2 * i = calls + 2 * (i + 1) := by ring
      rw [e1]

theorem lit_zero : F32.lit 0 = F32.fin 0 := by decide!

theorem lit_hundred : F32.lit 100 = F32.fin 100 := by decide!

/-- Small integers convert to `float` exactly. -/
theorem ofInt_small (z : ℤ) (hz : |z| ≤ 2 ^ 24) : F32.ofInt z = F32.fin (z : ℚ) := by
  have hg := rndS_grid z 0 hz (by norm_num)
  have h0 : pow2 0 = 1 := by rw [pow2_eq]; norm_num
  rw [h0, mul_one] at hg
  have hq : |(z : ℚ)| ≤ 2 ^ 24 := by exact_mod_cast hz
  have hb := abs_le.mp hq
  have hbig := pow2_128_large
  unfold F32.ofInt
  rw [rnd_eq_fin (by rw [hg]; linarith) (by rw [hg]; linarith), hg]

/-- A quotient `z / 100.0f` with `lo * 100 <= z <= hi * 100`, for small integers `lo`
and `hi`, is a finite binary32 value between `lo` and `hi`. -/
theorem div_hundred (z lo hi : ℤ) (hz : |z| ≤ 2 ^ 24) (hlo : |lo| ≤ 2 ^ 24)
    (hhi : |hi| ≤ 2 ^ 24) (h1 : lo * 100 ≤ z) (h2 : z ≤ hi * 100) :
    ∃ q : ℚ, F32.div (F32.ofInt z) (F32.lit 100) = F32.fin q ∧ (F32.fin q).wf ∧
      (lo : ℚ) ≤ q ∧ q ≤ (hi : ℚ) := by
  have h0 : pow2 0 = 1 := by rw [pow2_eq]; norm_num
  have glo := rndS_grid lo 0 hlo (by norm_num)
  have ghi := rndS_grid hi 0 hhi (by norm_num)
  rw [h0, mul_one] at glo ghi
  have hbig := pow2_128_large
  have blo := abs_le.mp (show |(lo : ℚ)| ≤ 2 ^ 24 by exact_mod_cast hlo)
  have bhi := abs_le.mp (show |(hi : ℚ)| ≤ 2 ^ 24 by exact_mod_cast hhi)
  have hdiv : F32.div (F32.ofInt z) (F32.lit 100) = rnd ((z : ℚ) / 100) := by
    rw [ofInt_small z hz, lit_hundred]
    simp [F32.div]
  have q1 : (lo : ℚ) ≤ (z : ℚ) / 100 := by
    rw [le_div_iff₀ (by norm_num)]
    exact_mod_cast h1
  have q2 : (z : ℚ) / 100 ≤ (hi : ℚ) := by
    rw [div_le_iff₀ (by norm_num)]
    exact_mod_cast h2
  obtain ⟨e, l, u⟩ := rnd_between _ _ _ q1 q2 (by rw [glo]; linarith) (by rw [ghi]; linarith)
  rw [glo] at l
  rw [ghi] at u
  refine ⟨rndS ((z : ℚ) / 100), by rw [hdiv, e], ?_, l, u⟩
  rw [← e]
  exact rnd_wf _

/-- Contents of slot `i` after `initParticles`. -/
theorem initParticles_getElem? (rand : ℕ → ℕ) (i : ℕ) (h : i < NUM_PARTICLES) :
    (initParticles rand)[i]? = some
      { position :=
          ⟨F32.div (F32.ofInt ((rand (2 * i) : ℤ) % 200 - 100)) (F32.lit 100),
           F32.div (F32.ofInt ((rand (2 * i + 1) : ℤ) % 200)) (F32.lit 100)⟩,
        velocity := ⟨F32.lit 0, F32.lit 0⟩ } := by
  unfold initParticles
  rw [initLoop_getElem? rand NUM_PARTICLES 0 i h]
  simp

theorem initParticles_length (rand : ℕ → ℕ) : (initParticles rand).length = NUM_PARTICLES :=
  initLoop_length rand NUM_PARTICLES 0

theorem initParticles_mem (rand : ℕ → ℕ) (p : Particle) (hp : p ∈ initParticles rand) :
    ∃ i, i < NUM_PARTICLES ∧ p =
      { position :=
          ⟨F32.div (F32.ofInt ((rand (2 * i) : ℤ) % 200 - 100)) (F32.lit 100),
           F32.div (F32.ofInt ((rand (2 * i + 1) : ℤ) % 200)) (F32.lit 100)⟩,
        velocity := ⟨F32.lit 0, F32.lit 0⟩ } := by
  obtain ⟨i, hi, hget⟩ := List.getElem_of_mem hp
  rw [initParticles_length] at hi
  refine ⟨i, hi, ?_⟩
  have h1 := initParticles_getElem? rand i hi
  rw [List.getElem?_eq_getElem (by rw [initParticles_length]; exact hi)] at h1
  rw [← hget]
  exact Option.some.inj h1

/-- Every particle produced by `initParticles` satisfies the range invariant. -/
theorem initParticles_inRange (rand : ℕ → ℕ) (p : Particle) (hp : p ∈ initParticles rand) :
    InRange p := by
  obtain ⟨i, _, rfl⟩ := initParticles_mem rand p hp
  have hm : (0 : ℤ) ≤ (rand (2 * i + 1) : ℤ) % 200 := Int.emod_nonneg _ (by norm_num)
  have hm2 : (rand (2 * i + 1) : ℤ) % 200 < 200 := Int.emod_lt_of_pos _ (by norm_num)
  obtain ⟨q, hq, _, l, u⟩ := div_hundred ((rand (2 * i + 1) : ℤ) % 200) 0 2
    (by rw [abs_of_nonneg hm]; omega) (by norm_num) (by norm_num) (by omega) (by omega)
  refine ⟨0, q, lit_zero, hq, by norm_num, by norm_num, ?_, ?_⟩
  · have : ((0 : ℤ) : ℚ) ≤ q := l
    push_cast at this
    linarith
  · have : q ≤ ((2 : ℤ) : ℚ) := u
    push_cast at this
    linarith

/-! ## Iterated steps -/

theorem stepParticle_iterate_inRange (k : ℕ) (p : Particle) (h : InRange p) :
    InRange (stepParticle^[k] p) := by
  induction k with
  | zero => exact h
  | succ k ih =>
    rw [Function.iterate_succ_apply']
    exact stepParticle_inRange _ ih

/-- Adding the float zero leaves a binary32 value unchanged. -/
theorem add_zero_wf (a : F32) (h : a.wf) : F32.add a (F32.fin 0) = a := by
  cases a with
  | nan => rfl
  | ninf => rfl
  | pinf => rfl
  | fin q =>
    show rnd (q + 0) = F32.fin q
    rw [add_zero]
    exact h

/-- Horizontal components after one step. -/
theorem stepParticle_x (p : Particle) (h : p.velocity.x.wf) :
    (stepParticle p).velocity.x = p.velocity.x ∧
    (stepParticle p).position.x = F32.fma p.velocity.x DT p.position.x := by
  rw [stepParticle_unfold, DT_eq]
  split_ifs <;> simp only [add_zero_wf _ h, and_self]

theorem stepParticle_iterate_x (k : ℕ) (p : Particle) (q : ℚ) (hv : p.velocity.x = F32.fin 0)
    (hx : p.position.x = F32.fin q) (hq : (F32.fin q).wf) :
    (stepParticle^[k] p).velocity.x = F32.fin 0 ∧ (stepParticle^[k] p).position.x = F32.fin q := by
  induction k with
  | zero => exact ⟨hv, hx⟩
  | succ k ih =>
    rw [Function.iterate_succ_apply']
    obtain ⟨h1, h2⟩ := stepParticle_x (stepParticle^[k] p) (by rw [ih.1]; decide!)
    rw [h1, h2, ih.1, ih.2, DT_eq]
    refine ⟨rfl, ?_⟩
    show rnd (0 * (5368709 / 536870912) + q) = F32.fin q
    rw [zero_mul, zero_add]
    exact hq

theorem lit_neg_one : F32.lit (-1) = F32.fin (-1) := by decide!

theorem lit_one : F32.lit 1 = F32.fin 1 := by decide!

theorem lit_two : F32.lit 2 = F32.fin 2 := by decide!

/-! ## The specification's raw values against the code -/

theorem f32_mul_comm (a b : F32) : F32.mul a b = F32.mul b a := by
  cases a <;> cases b <;> simp only [F32.mul]
  rw [Rat.mul_comm]

theorem specVelocityYRaw_eq (p : Particle) :
    specVelocityYRaw p = F32.add p.velocity.y (F32.fin (-13153337 / 134217728)) := by
  have h : F32.neg (F32.mul (F32.lit (98 / 10)) (F32.lit (1 / 100)))
      = F32.fin (-13153337 / 134217728) := by decide!
  unfold specVelocityYRaw F32.sub
  rw [h]

theorem specPositionYRaw_eq (p : Particle) :
    specPositionYRaw p = F32.fma (F32.add p.velocity.y (F32.fin (-13153337 / 134217728)))
      (F32.fin (5368709 / 536870912)) p.position.y := by
  have h : F32.lit (1 / 100) = F32.fin (5368709 / 536870912) := by decide!
  unfold specPositionYRaw
  rw [specVelocityYRaw_eq, h]

theorem lit_neg_rest : F32.lit (-8 / 10) = F32.fin (-13421773 / 16777216) := by decide!

theorem lit_DT : F32.lit (1 / 100) = F32.fin (5368709 / 536870912) := by decide!

/-! ## Strict effects of a rounding -/

theorem rndS_abs (x : ℚ) : |rndS x| = rndAbs |x| := by
  rcases lt_or_le x 0 with hx | hx
  · have h1 : rndS x = -rndAbs (-x) := by simp [rndS, hx]
    rw [h1, abs_neg, abs_of_nonneg (rndAbs_nonneg (by linarith)), abs_of_neg hx]
  · have h1 : rndS x = rndAbs x := by simp [rndS, not_lt.mpr hx]
    rw [h1, abs_of_nonneg (rndAbs_nonneg hx), abs_of_nonneg hx]

theorem add_wf (a b : F32) : (F32.add a b).wf := by
  cases a <;> cases b <;> first | trivial | exact rnd_wf _

/-- A magnitude on the binary32 grid, below the overflow threshold, is a mantissa of at
most 24 bits times the power of two given by its exponent. -/
theorem grid_form {a : ℚ} (h0 : 0 ≤ a) (hfix : rndAbs a = a) (hlt : a < pow2 128) :
    ∃ m : ℕ, m < 2 ^ 24 ∧ a = (m : ℚ) * pow2 (expOf a 254 (-149)) := by
  have h129 : a < pow2 129 := by
    rw [pow2_129_eq]
    have := pow2_pos 128
    linarith
  obtain ⟨m, _, hm⟩ := rndAbs_on_grid h0 h129
  rw [hfix] at hm
  refine ⟨m, ?_, hm⟩
  have hE : expOf a 254 (-149) < -149 + (254 : ℕ) := by
    by_contra hcon
    push_neg at hcon
    have h1 : -149 < expOf a 254 (-149) := by
      have : (-149 : ℤ) + (254 : ℕ) = 105 := by norm_num
      omega
    have h2 := expOf_ge_pow a 254 (-149) h1
    have h3 : pow2 128 ≤ pow2 (expOf a 254 (-149) + 23) := pow2_le (by
      have : (-149 : ℤ) + (254 : ℕ) = 105 := by norm_num
      omega)
    linarith
  have h4 := expOf_lt_pow a 254 (-149) hE
  have hp := pow2_pos (expOf a 254 (-149))
  rw [pow2_add] at h4
  have h24 : pow2 24 = ((2 ^ 24 : ℕ) : ℚ) := by rw [pow2_eq]; norm_num
  rw [h24] at h4
  have h5 : (m : ℚ) * pow2 (expOf a 254 (-149)) <
      ((2 ^ 24 : ℕ) : ℚ) * pow2 (expOf a 254 (-149)) := by
    rw [← hm]
    linarith
  have h6 : (m : ℚ) < ((2 ^ 24 : ℕ) : ℚ) := lt_of_mul_lt_mul_right h5 hp.le
  exact_mod_cast h6

theorem pow2_neg125 : pow2 (-125) = 16777216 * pow2 (-149) := by
  rw [show (-125 : ℤ) = 24 + -149 by norm_num, pow2_add, pow2_eq 24]
  norm_num

theorem pow2_neg149_small : pow2 (-149) < 1 ∧ 3 * pow2 (-149) < pow2 128 := by
  have h1 : pow2 (-149) ≤ pow2 (-2) := pow2_le (by norm_num)
  have h2 : pow2 (-2) = 1 / 4 := by rw [pow2_eq]; norm_num
  have h3 : pow2 0 ≤ pow2 128 := pow2_le (by norm_num)
  have h4 : pow2 0 = 1 := by rw [pow2_eq]; norm_num
  constructor <;> linarith

/-- The exponent of a magnitude below `2 ^ (-125)` is the least one. -/
theorem expOf_subnormal {a : ℚ} (h : a < pow2 (-125)) : expOf a 254 (-149) = -149 :=
  le_antisymm (expOf_le_of_lt a 254 (-149) (-149) (by simpa using h) (le_refl _))
    (expOf_ge a 254 (-149))

/-- Scaling a binary32 magnitude of at least `3 * 2 ^ (-149)` by the restitution `0.8f`
and rounding gives a strictly smaller magnitude. -/
theorem rndAbs_restitution_lt {a : ℚ} (hfix : rndAbs a = a) (h3 : 3 * pow2 (-149) ≤ a)
    (hlt : a < pow2 128) : rndAbs (a * (13421773 / 16777216)) < a := by
  have hpos := pow2_pos (-149)
  have h0 : 0 ≤ a := by linarith
  obtain ⟨m, hm24, hm⟩ := grid_form h0 hfix hlt
  set E := expOf a 254 (-149) with hE
  have hEge : -149 ≤ E := expOf_ge a 254 (-149)
  have hp := pow2_pos E
  have h23 : pow2 23 = ((2 ^ 23 : ℕ) : ℚ) := by rw [pow2_eq]; norm_num
  by_cases hm6 : 6 ≤ m
  · have hgrid := rndAbs_grid (m - 1) E (by omega) hEge
    have hcast : ((m - 1 : ℕ) : ℚ) = (m : ℚ) - 1 := by
      rw [Nat.cast_sub (by omega)]
      simp
    rw [hcast] at hgrid
    have hm6' : (6 : ℚ) ≤ (m : ℚ) := by exact_mod_cast hm6
    have hle : a * (13421773 / 16777216) ≤ ((m : ℚ) - 1) * pow2 E := by
      rw [hm]
      have : (m : ℚ) * (13421773 / 16777216) ≤ (m : ℚ) - 1 := by linarith
      calc (m : ℚ) * pow2 E * (13421773 / 16777216)
          = (m : ℚ) * (13421773 / 16777216) * pow2 E := by ring
        _ ≤ ((m : ℚ) - 1) * pow2 E := mul_le_mul_of_nonneg_right this hp.le
    have hmono := rndAbs_mono hle
    rw [hgrid] at hmono
    have : ((m : ℚ) - 1) * pow2 E < a := by
      rw [hm]
      nlinarith
    linarith
  · push_neg at hm6
    have hEeq : E = -149 := by
      rcases eq_or_lt_of_le hEge with heq | hgt
      · exact heq.symm
      · exfalso
        have hlow := expOf_ge_pow a 254 (-149) hgt
        rw [← hE, pow2_add, h23, hm] at hlow
        have h5 : ((2 ^ 23 : ℕ) : ℚ) ≤ (m : ℚ) := by
          have : ((2 ^ 23 : ℕ) : ℚ) * pow2 E ≤ (m : ℚ) * pow2 E := by linarith
          exact le_of_mul_le_mul_right this hp
        have : (2 ^ 23 : ℕ) ≤ m := by exact_mod_cast h5
        omega
    rw [hEeq] at hm
    have hm3 : 3 ≤ m := by
      have h5 : (3 : ℚ) * pow2 (-149) ≤ (m : ℚ) * pow2 (-149) := by rw [← hm]; exact h3
      have h6 : (3 : ℚ) ≤ (m : ℚ) := le_of_mul_le_mul_right h5 hpos
      exact_mod_cast h6
    have e3 : rndAbs (((3 : ℕ) : ℚ) * pow2 (-149) * (13421773 / 16777216))
        < ((3 : ℕ) : ℚ) * pow2 (-149) := by decide!
    have e4 : rndAbs (((4 : ℕ) : ℚ) * pow2 (-149) * (13421773 / 16777216))
        < ((4 : ℕ) : ℚ) * pow2 (-149) := by decide!
    have e5 : rndAbs (((5 : ℕ) : ℚ) * pow2 (-149) * (13421773 / 16777216))
        < ((5 : ℕ) : ℚ) * pow2 (-149) := by decide!
    rw [hm]
    interval_cases m
    · exact e3
    · exact e4
    · exact e5

/-- Scaling one of the binary32 magnitudes `0`, `2 ^ (-149)`, `2 ^ (-148)` by the
restitution `0.8f` and rounding gives the same magnitude back. -/
theorem rndAbs_restitution_eq {a : ℚ} (h0 : 0 ≤ a) (hfix : rndAbs a = a)
    (hlt3 : a < 3 * pow2 (-149)) : rndAbs (a * (13421773 / 16777216)) = a := by
  have hpos := pow2_pos (-149)
  have hsmall := pow2_neg149_small
  obtain ⟨m, _, hm⟩ := grid_form h0 hfix (by linarith)
  have hE : expOf a 254 (-149) = -149 := expOf_subnormal (by rw [pow2_neg125]; linarith)
  rw [hE] at hm
  have hm3 : m < 3 := by
    have h5 : (m : ℚ) * pow2 (-149) < (3 : ℚ) * pow2 (-149) := by rw [← hm]; exact hlt3
    have h6 : (m : ℚ) < (3 : ℚ) := lt_of_mul_lt_mul_right h5 hpos.le
    exact_mod_cast h6
  have e0 : rndAbs (((0 : ℕ) : ℚ) * pow2 (-149) * (13421773 / 16777216))
      = ((0 : ℕ) : ℚ) * pow2 (-149) := by decide!
  have e1 : rndAbs (((1 : ℕ) : ℚ) * pow2 (-149) * (13421773 / 16777216))
      = ((1 : ℕ) : ℚ) * pow2 (-149) := by decide!
  have e2 : rndAbs (((2 : ℕ) : ℚ) * pow2 (-149) * (13421773 / 16777216))
      = ((2 : ℕ) : ℚ) * pow2 (-149) := by decide!
  rw [hm]
  interval_cases m
  · exact e0
  · exact e1
  · exact e2

/-- Adding a negative amount of at least `2 ^ (-4)` in magnitude to a binary32 value of
magnitude below `2 ^ 20` and rounding gives a strictly smaller value. -/
theorem rndS_add_lt {q c : ℚ} (hfix : rndS q = q) (hq : |q| < 2 ^ 20) (hc : c ≤ -(1 / 16)) :
    rndS (q + c) < q := by
  have h0 : (0 : ℚ) ≤ |q| := abs_nonneg q
  have hafix : rndAbs |q| = |q| := by rw [← rndS_abs, hfix]
  have hbig := pow2_128_large
  obtain ⟨m, hm24, hm⟩ := grid_form h0 hafix (by linarith)
  set E := expOf |q| 254 (-149) with hE
  have hEge : -149 ≤ E := expOf_ge |q| 254 (-149)
  have hp := pow2_pos E
  have h20 : pow2 (-4 + 24) = 2 ^ 20 := by rw [pow2_eq]; norm_num
  have hEle : E ≤ -4 := expOf_le_of_lt |q| 254 (-149) (-4) (by rw [h20]; exact hq) (by norm_num)
  have hulp : pow2 E ≤ 1 / 16 := by
    have := pow2_le hEle
    have h4 : pow2 (-4) = 1 / 16 := by rw [pow2_eq]; norm_num
    rwa [h4] at this
  -- signed mantissa
  obtain ⟨M, hM, hqM⟩ : ∃ M : ℤ, |M| < 2 ^ 24 ∧ q = (M : ℚ) * pow2 E := by
    rcases le_or_lt 0 q with hq0 | hq0
    · refine ⟨(m : ℤ), ?_, ?_⟩
      · rw [abs_of_nonneg (by positivity)]
        exact_mod_cast hm24
      · rw [abs_of_nonneg hq0] at hm
        rw [hm]
        simp
    · refine ⟨-(m : ℤ), ?_, ?_⟩
      · rw [abs_neg, abs_of_nonneg (by positivity)]
        exact_mod_cast hm24
      · rw [abs_of_neg hq0] at hm
        push_cast
        linarith
  have hgrid := rndS_grid (M - 1) E (by
    have := abs_sub M 1
    have h1 : |M - 1| ≤ |M| + |1| := by
      have := abs_add M (-1)
      simpa [sub_eq_add_neg] using this
    simp only [abs_one] at h1
    omega) hEge
  have hle : q + c ≤ ((M - 1 : ℤ) : ℚ) * pow2 E := by
    push_cast
    rw [hqM]
    nlinarith
  have hmono := rndS_mono hle
  rw [hgrid] at hmono
  have : ((M - 1 : ℤ) : ℚ) * pow2 E < q := by
    push_cast
    rw [hqM]
    nlinarith
  linarith

theorem rnd_not_lt {x b : ℚ} (hb2 : -pow2 128 < b) (hmono : b ≤ rndS x) :
    F32.lt (rnd x) (F32.fin b) = false := by
  unfold rnd
  simp only
  split_ifs with h1 h2
  · rfl
  · exfalso; linarith
  · simp only [F32.lt, decide_eq_false_iff_not, not_lt]
    exact hmono

theorem rndS_floor_tiny : rndS (-1 + -pow2 (-149)) = -1 := by decide!

theorem mul_pinf_rest : F32.mul F32.pinf (F32.fin (-13421773 / 16777216)) = F32.ninf := by
  decide!

theorem mul_ninf_rest : F32.mul F32.ninf (F32.fin (-13421773 / 16777216)) = F32.pinf := by
  decide!

/-- A bounce from a height at or above the floor needs a raw velocity of magnitude at
least `3 * 2 ^ (-149)`: a smaller one moves the particle by less than the rounding can
see. -/
theorem bounce_needs_speed {y q : ℚ} (hy : -1 ≤ y)
    (hb : F32.lt (F32.fma (F32.fin q) (F32.fin (5368709 / 536870912)) (F32.fin y))
      (F32.fin (-1)) = true) : 3 * pow2 (-149) ≤ |q| := by
  by_contra hcon
  push_neg at hcon
  have hq := abs_lt.mp hcon
  have hpos := pow2_pos (-149)
  have hbig := pow2_128_large
  have hfalse : F32.lt (rnd (q * (5368709 / 536870912) + y)) (F32.fin (-1)) = false := by
    apply rnd_not_lt (by linarith)
    have := rndS_mono (show -1 + -pow2 (-149) ≤ q * (5368709 / 536870912) + y by nlinarith)
    rwa [rndS_floor_tiny] at this
  simp only [F32.fma] at hb
  rw [hfalse] at hb
  exact Bool.false_ne_true hb

/-! ## Rounding to a nearby grid point; absorption of the gravity increment -/

theorem roundHalfEven_near {q : ℚ} {m : ℤ} (h : |q - m| < 1 / 2) : roundHalfEven q = m := by
  obtain ⟨h1, h2⟩ := abs_lt.mp h
  rcases le_or_lt (m : ℚ) q with hge | hlt
  · have hf : ⌊q⌋ = m := Int.floor_eq_iff.mpr ⟨hge, by linarith⟩
    unfold roundHalfEven
    simp only
    rw [hf, if_pos (by linarith)]
  · have hf : ⌊q⌋ = m - 1 := Int.floor_eq_iff.mpr ⟨by push_cast; linarith, by push_cast; linarith⟩
    unfold roundHalfEven
    simp only
    rw [hf, if_neg (by push_cast; linarith), if_pos (by push_cast; linarith)]
    ring

theorem expOf_eq {a : ℚ} {e : ℤ} (he : -149 ≤ e) (he2 : e ≤ 105)
    (hlo : e = -149 ∨ pow2 (e + 23) ≤ a) (hhi : a < pow2 (e + 24)) :
    expOf a 254 (-149) = e := by
  apply le_antisymm (expOf_le_of_lt a 254 (-149) e hhi he)
  by_contra hcon
  push_neg at hcon
  have hge := expOf_ge a 254 (-149)
  rcases hlo with heq | hlo
  · omega
  · have h1 : expOf a 254 (-149) < -149 + (254 : ℕ) := by
      have : (-149 : ℤ) + (254 : ℕ) = 105 := by norm_num
      omega
    have h2 := expOf_lt_pow a 254 (-149) h1
    have h3 : pow2 (expOf a 254 (-149) + 24) ≤ pow2 (e + 23) := pow2_le (by omega)
    linarith

theorem rndAbs_near {a : ℚ} {m : ℤ} (h : |a / pow2 (expOf a 254 (-149)) - m| < 1 / 2) :
    rndAbs a = (m : ℚ) * pow2 (expOf a 254 (-149)) := by
  unfold rndAbs
  simp only
  rw [roundHalfEven_near h]

/-- A binary32 magnitude of at least `2 ^ (e + 23)` is a multiple of `2 ^ e`. -/
theorem grid_multiple {a : ℚ} (h0 : 0 ≤ a) (hfix : rndAbs a = a) (hlt : a < pow2 128)
    (e : ℤ) (he : pow2 (e + 23) ≤ a) : ∃ N : ℕ, a = (N : ℚ) * pow2 e := by
  obtain ⟨m, _, hm⟩ := grid_form h0 hfix hlt
  set E := expOf a 254 (-149) with hE
  have hE104 : E ≤ 104 := expOf_le_of_lt a 254 (-149) 104 (by simpa using hlt) (by norm_num)
  have hge : e ≤ E := by
    by_contra hcon
    push_neg at hcon
    have h1 : E < -149 + (254 : ℕ) := by
      have : (-149 : ℤ) + (254 : ℕ) = 105 := by norm_num
      omega
    have h2 := expOf_lt_pow a 254 (-149) h1
    have h3 : pow2 (E + 24) ≤ pow2 (e + 23) := pow2_le (by omega)
    linarith
  obtain ⟨d, hd⟩ := Int.eq_ofNat_of_zero_le (by omega : 0 ≤ E - e)
  refine ⟨m * 2 ^ d, ?_⟩
  have hsplit : pow2 E = pow2 e * ((2 ^ d : ℕ) : ℚ) := by
    have : E = e + (d : ℤ) := by omega
    rw [this, pow2_add, pow2_eq (d : ℤ)]
    simp
  rw [hm, hsplit]
  push_cast
  ring

/-- Rounding a magnitude of at least `2 ^ 21`, moved by less than `0.1`, back to a
binary32 neighbour it was moved from. -/
theorem rndAbs_absorb {g a : ℚ} (hg0 : 0 ≤ g) (hgfix : rndAbs g = g) (hglt : g < pow2 128)
    (ha : pow2 21 ≤ a) (hexp : pow2 (expOf a 254 (-149) + 23) ≤ g)
    (hnear : |a - g| < 1 / 10) : rndAbs a = g := by
  set E := expOf a 254 (-149) with hE
  have hE2 : -2 ≤ E := by
    by_contra hcon
    push_neg at hcon
    have h1 : E < -149 + (254 : ℕ) := by
      have : (-149 : ℤ) + (254 : ℕ) = 105 := by norm_num
      omega
    have h2 := expOf_lt_pow a 254 (-149) h1
    have h3 : pow2 (E + 24) ≤ pow2 21 := pow2_le (by omega)
    linarith
  obtain ⟨N, hN⟩ := grid_multiple hg0 hgfix hglt E hexp
  have hp := pow2_pos E
  have hp4 : 1 / 4 ≤ pow2 E := by
    have := pow2_le hE2
    have h4 : pow2 (-2) = 1 / 4 := by rw [pow2_eq]; norm_num
    rwa [h4] at this
  have hq : |a / pow2 E - ((N : ℤ) : ℚ)| < 1 / 2 := by
    have e1 : a / pow2 E - ((N : ℤ) : ℚ) = (a - g) / pow2 E := by
      rw [hN]
      field_simp
      ring
    rw [e1, abs_div, abs_of_pos hp, div_lt_iff₀ hp]
    nlinarith
  rw [rndAbs_near hq, hN]
  simp

theorem pow2_21 : pow2 21 = 2 ^ 21 := by rw [pow2_eq]; norm_num

theorem pow2_20 : pow2 20 = 2 ^ 20 := by rw [pow2_eq]; norm_num

/-- A binary32 value above `2 ^ 21` is at least `2 ^ 21 + 1 / 4`. -/
theorem grid_above_2_21 {g : ℚ} (hg0 : 0 ≤ g) (hgfix : rndAbs g = g) (hglt : g < pow2 128)
    (h : 2 ^ 21 < g) : 2 ^ 21 + 1 / 4 ≤ g := by
  obtain ⟨N, hN⟩ := grid_multiple hg0 hgfix hglt (-2) (by
    have : pow2 (-2 + 23) = 2 ^ 21 := by rw [pow2_eq]; norm_num
    rw [this]; exact h.le)
  have h4 : pow2 (-2) = 1 / 4 := by rw [pow2_eq]; norm_num
  rw [h4] at hN
  have h1 : (2 ^ 23 : ℚ) < (N : ℚ) := by rw [hN] at h; linarith
  have h2 : 2 ^ 23 < N := by exact_mod_cast h1
  have h3 : ((2 ^ 23 + 1 : ℕ) : ℚ) ≤ (N : ℚ) := by exact_mod_cast h2
  push_cast at h3
  rw [hN]
  linarith

/-- Gravity is absorbed by a binary32 velocity above `2 ^ 21`. -/
theorem gravity_absorbed_pos {q : ℚ} (hfix : rndS q = q) (hlt : q < pow2 128)
    (h : 2 ^ 21 < q) : rndS (q + -13153337 / 134217728) = q := by
  have hq0 : 0 ≤ q := by linarith
  have hafix : rndAbs q = q := by
    have := rndS_abs q
    rw [hfix, abs_of_nonneg hq0] at this
    exact this.symm
  have hstep := grid_above_2_21 hq0 hafix hlt h
  have ha21 : pow2 21 ≤ q + -13153337 / 134217728 := by rw [pow2_21]; linarith
  have ha0 : ¬ (q + -13153337 / 134217728 < 0) := by
    have := pow2_pos 21
    linarith
  have hEa : -149 < expOf (q + -13153337 / 134217728) 254 (-149) := by
    by_contra hcon
    push_neg at hcon
    have h1 : expOf (q + -13153337 / 134217728) 254 (-149) < -149 + (254 : ℕ) := by
      have : (-149 : ℤ) + (254 : ℕ) = 105 := by norm_num
      omega
    have h2 := expOf_lt_pow _ 254 (-149) h1
    have h3 : pow2 (expOf (q + -13153337 / 134217728) 254 (-149) + 24) ≤ pow2 21 :=
      pow2_le (by omega)
    linarith
  have hexp := expOf_ge_pow _ 254 (-149) hEa
  unfold rndS
  rw [if_neg ha0]
  apply rndAbs_absorb hq0 hafix hlt ha21 (by linarith)
  rw [abs_lt]
  constructor <;> norm_num

/-- Gravity is absorbed by a binary32 velocity of `-2 ^ 21` or below. -/
theorem gravity_absorbed_neg {q : ℚ} (hfix : rndS q = q) (hlt : -pow2 128 < q)
    (h : q ≤ -(2 ^ 21)) : rndS (q + -13153337 / 134217728) = q := by
  have hq0 : (0 : ℚ) ≤ -q := by linarith
  have hafix : rndAbs (-q) = -q := by
    have := rndS_abs q
    rw [hfix, abs_of_nonpos (by linarith)] at this
    exact this.symm
  have hlt' : -q < pow2 128 := by linarith
  obtain ⟨m, hm24, hm⟩ := grid_form hq0 hafix hlt'
  set E := expOf (-q) 254 (-149) with hE
  have hE104 : E ≤ 104 := expOf_le_of_lt (-q) 254 (-149) 104 (by simpa using hlt') (by norm_num)
  have hE2 : -2 ≤ E := by
    by_contra hcon
    push_neg at hcon
    have h1 : E < -149 + (254 : ℕ) := by
      have : (-149 : ℤ) + (254 : ℕ) = 105 := by norm_num
      omega
    have h2 := expOf_lt_pow (-q) 254 (-149) h1
    have h3 : pow2 (E + 24) ≤ pow2 21 := pow2_le (by omega)
    rw [pow2_21] at h3
    linarith
  have hp := pow2_pos E
  have hp4 : 1 / 4 ≤ pow2 E := by
    have := pow2_le hE2
    have h4 : pow2 (-2) = 1 / 4 := by rw [pow2_eq]; norm_num
    rwa [h4] at this
  have hlow : pow2 (E + 23) ≤ -q := expOf_ge_pow (-q) 254 (-149) (by omega)
  have hhi : -q + 13153337 / 134217728 < pow2 (E + 24) := by
    have h24 : pow2 24 = 16777216 := by rw [pow2_eq]; norm_num
    rw [pow2_add, h24, hm]
    have : (m : ℚ) ≤ 16777215 := by
      have : m ≤ 16777215 := by omega
      exact_mod_cast this
    nlinarith
  have hEa : expOf (-q + 13153337 / 134217728) 254 (-149) = E :=
    expOf_eq (by omega) (by omega) (Or.inr (by linarith)) hhi
  have hneg : q + -13153337 / 134217728 < 0 := by linarith
  unfold rndS
  rw [if_pos hneg]
  have e1 : -(q + -13153337 / 134217728) = -q + 13153337 / 134217728 := by ring
  rw [e1]
  have := rndAbs_absorb hq0 hafix hlt' (a := -q + 13153337 / 134217728)
    (by rw [pow2_21]; linarith) (by rw [hEa]; exact hlow)
    (by rw [abs_lt]; constructor <;> norm_num)
  rw [this]
  ring

/-! ## Gravity changes every velocity it is not absorbed by -/

theorem rndS_gravity_2_20 : rndS (2 ^ 20 + -13153337 / 134217728) < 2 ^ 20 := by decide!

theorem pow2_neg3 : pow2 (-3) = 1 / 8 := by rw [pow2_eq]; norm_num

/-- In the binade of `2 ^ 20` the gravity increment moves a rounded magnitude one step of
`1 / 8` down. -/
theorem rndAbs_gravity_down {N : ℕ} (h1 : 2 ^ 23 < N) (h2 : N ≤ 2 ^ 24) :
    rndAbs ((N : ℚ) * (1 / 8) + -13153337 / 134217728) = ((N : ℚ) - 1) * (1 / 8) := by
  have hN1 : ((2 ^ 23 + 1 : ℕ) : ℚ) ≤ (N : ℚ) := by exact_mod_cast h1
  have hN2 : (N : ℚ) ≤ ((2 ^ 24 : ℕ) : ℚ) := by exact_mod_cast h2
  push_cast at hN1 hN2
  have hE : expOf ((N : ℚ) * (1 / 8) + -13153337 / 134217728) 254 (-149) = -3 :=
    expOf_eq (by norm_num) (by norm_num)
      (Or.inr (by rw [show (-3 : ℤ) + 23 = 20 by norm_num, pow2_20]; linarith))
      (by rw [show (-3 : ℤ) + 24 = 21 by norm_num, pow2_21]; linarith)
  have hq : |((N : ℚ) * (1 / 8) + -13153337 / 134217728) /
      pow2 (expOf ((N : ℚ) * (1 / 8) + -13153337 / 134217728) 254 (-149))
      - (((N : ℤ) - 1 : ℤ) : ℚ)| < 1 / 2 := by
    rw [hE, pow2_neg3]
    have e : ((N : ℚ) * (1 / 8) + -13153337 / 134217728) / (1 / 8) - (((N : ℤ) - 1 : ℤ) : ℚ)
        = 3623879 / 16777216 := by
      push_cast
      ring
    rw [e, abs_of_pos (by norm_num)]
    norm_num
  rw [rndAbs_near hq, hE, pow2_neg3]
  push_cast
  ring

/-- In the binade of `2 ^ 20` the gravity increment moves a rounded magnitude one step of
`1 / 8` up when it is added in magnitude. -/
theorem rndAbs_gravity_up {N : ℕ} (h1 : 2 ^ 23 ≤ N) (h2 : N < 2 ^ 24) :
    rndAbs ((N : ℚ) * (1 / 8) + 13153337 / 134217728) = ((N : ℚ) + 1) * (1 / 8) := by
  have hN1 : (8388608 : ℚ) ≤ (N : ℚ) := by
    have : 8388608 ≤ N := by omega
    exact_mod_cast this
  have hN2 : (N : ℚ) ≤ (16777215 : ℚ) := by
    have : N ≤ 16777215 := by omega
    exact_mod_cast this
  have hE : expOf ((N : ℚ) * (1 / 8) + 13153337 / 134217728) 254 (-149) = -3 :=
    expOf_eq (by norm_num) (by norm_num)
      (Or.inr (by rw [show (-3 : ℤ) + 23 = 20 by norm_num, pow2_20]; linarith))
      (by rw [show (-3 : ℤ) + 24 = 21 by norm_num, pow2_21]; linarith)
  have hq : |((N : ℚ) * (1 / 8) + 13153337 / 134217728) /
      pow2 (expOf ((N : ℚ) * (1 / 8) + 13153337 / 134217728) 254 (-149))
      - (((N : ℤ) + 1 : ℤ) : ℚ)| < 1 / 2 := by
    rw [hE, pow2_neg3]
    have e : ((N : ℚ) * (1 / 8) + 13153337 / 134217728) / (1 / 8) - (((N : ℤ) + 1 : ℤ) : ℚ)
        = -(3623879 / 16777216) := by
      push_cast
      ring
    rw [e, abs_neg, abs_of_pos (by norm_num)]
    norm_num
  rw [rndAbs_near hq, hE, pow2_neg3]
  push_cast
  ring

/-- Gravity strictly decreases every binary32 velocity in `(-2 ^ 21, 2 ^ 21]`. -/
theorem gravity_moves {q : ℚ} (hfix : rndS q = q) (h1 : -(2 ^ 21) < q) (h2 : q ≤ 2 ^ 21) :
    rndS (q + -13153337 / 134217728) < q := by
  have hbig := pow2_128_large
  rcases lt_or_le |q| (2 ^ 20) with hs | hl
  · exact rndS_add_lt hfix hs (by norm_num)
  · rcases le_or_lt 0 q with hq0 | hq0
    · rw [abs_of_nonneg hq0] at hl
      have hafix : rndAbs q = q := by
        have := rndS_abs q
        rw [hfix, abs_of_nonneg hq0] at this
        exact this.symm
      rcases eq_or_lt_of_le hl with heq | hgt
      · rw [← heq]
        exact rndS_gravity_2_20
      · obtain ⟨N, hN⟩ := grid_multiple hq0 hafix (by linarith) (-3)
          (by rw [show (-3 : ℤ) + 23 = 20 by norm_num, pow2_20]; exact hl)
        rw [pow2_neg3] at hN
        have hN1 : 2 ^ 23 < N := by
          have : (2 ^ 23 : ℚ) < (N : ℚ) := by rw [hN] at hgt; linarith
          exact_mod_cast this
        have hN2 : N ≤ 2 ^ 24 := by
          have : (N : ℚ) ≤ (2 ^ 24 : ℚ) := by rw [hN] at h2; linarith
          exact_mod_cast this
        have hpos : ¬ ((N : ℚ) * (1 / 8) + -13153337 / 134217728 < 0) := by
          have : (2 ^ 23 : ℚ) < (N : ℚ) := by exact_mod_cast hN1
          push_neg
          linarith
        rw [hN]
        unfold rndS
        rw [if_neg hpos, rndAbs_gravity_down hN1 hN2]
        linarith
    · rw [abs_of_neg hq0] at hl
      have hafix : rndAbs (-q) = -q := by
        have := rndS_abs q
        rw [hfix, abs_of_neg hq0] at this
        exact this.symm
      obtain ⟨N, hN⟩ := grid_multiple (by linarith) hafix (by linarith) (-3)
        (by rw [show (-3 : ℤ) + 23 = 20 by norm_num, pow2_20]; exact hl)
      rw [pow2_neg3] at hN
      have hN1 : 2 ^ 23 ≤ N := by
        have : (2 ^ 23 : ℚ) ≤ (N : ℚ) := by rw [hN] at hl; linarith
        exact_mod_cast this
      have hN2 : N < 2 ^ 24 := by
        have : (N : ℚ) < (2 ^ 24 : ℚ) := by
          have : -q < 2 ^ 21 := by linarith
          rw [hN] at this
          linarith
        exact_mod_cast this
      have hq : q = -((N : ℚ) * (1 / 8)) := by linarith
      have hneg : q + -13153337 / 134217728 < 0 := by linarith
      unfold rndS
      rw [if_pos hneg]
      have e1 : -(q + -13153337 / 134217728) = (N : ℚ) * (1 / 8) + 13153337 / 134217728 := by
        rw [hq]; ring
      rw [e1, rndAbs_gravity_up hN1 hN2, hq]
      linarith

/-- Gravity is absorbed by a finite binary32 velocity exactly outside `(-2 ^ 21, 2 ^ 21]`. -/
theorem gravity_absorbed_iff {q : ℚ} (hw : (F32.fin q).wf) :
    F32.add (F32.fin q) (F32.fin (-13153337 / 134217728)) = F32.fin q ↔
      q ≤ -(2 ^ 21) ∨ 2 ^ 21 < q := by
  obtain ⟨hfix, hlo, hhi⟩ := wf_fin hw
  show rnd (q + -13153337 / 134217728) = F32.fin q ↔ _
  constructor
  · intro h
    obtain ⟨hq, _, _⟩ := rnd_fin_inv h
    by_contra hcon
    push_neg at hcon
    have := gravity_moves hfix hcon.1 hcon.2
    linarith
  · intro h
    have hr : rndS (q + -13153337 / 134217728) = q := by
      rcases h with h | h
      · exact gravity_absorbed_neg hfix hlo h
      · exact gravity_absorbed_pos hfix hhi h
    rw [rnd_eq_fin (by rw [hr]; exact hlo) (by rw [hr]; exact hhi), hr]

/-- The bounce map `v ↦ -0.8f * (v - 0.098f)` has the rest velocity as its only fixed
point: it is antitone. -/
theorem rest_velocity_unique {v : ℚ}
    (h : rndS (rndS (v + -13153337 / 134217728) * (-13421773 / 16777216)) = v) :
    v = restVelocityY := by
  have hrest : rndS (rndS (restVelocityY + -13153337 / 134217728) * (-13421773 / 16777216))
      = restVelocityY := by decide!
  rcases lt_trichotomy v restVelocityY with hlt | heq | hgt
  · exfalso
    have h1 := rndS_mono (show v + -13153337 / 134217728
      ≤ restVelocityY + -13153337 / 134217728 by linarith)
    have h2 := rndS_mono (show
      rndS (restVelocityY + -13153337 / 134217728) * (-13421773 / 16777216)
        ≤ rndS (v + -13153337 / 134217728) * (-13421773 / 16777216) by nlinarith)
    rw [hrest, h] at h2
    linarith
  · exact heq
  · exfalso
    have h1 := rndS_mono (show restVelocityY + -13153337 / 134217728
      ≤ v + -13153337 / 134217728 by linarith)
    have h2 := rndS_mono (show
      rndS (v + -13153337 / 134217728) * (-13421773 / 16777216)
        ≤ rndS (restVelocityY + -13153337 / 134217728) * (-13421773 / 16777216) by nlinarith)
    rw [hrest, h] at h2
    linarith

theorem mul_wf (a b : F32) : (F32.mul a b).wf := by
  cases a <;> cases b <;> simp only [F32.mul] <;>
    first
    | trivial
    | exact rnd_wf _
    | (split_ifs <;> first | trivial | (unfold F32.infOf; split_ifs <;> trivial))

theorem fma_wf (a b c : F32) : (F32.fma a b c).wf := by
  cases a <;> cases b <;> cases c <;> simp only [F32.fma] <;>
    first
    | trivial
    | exact rnd_wf _
    | exact add_wf _ _

/-- Every state produced by the step has binary32 components. -/
theorem stepParticle_wf (p : Particle) : (stepParticle p).wf := by
  have hfloor : (F32.fin (-1)).wf := by decide!
  rw [stepParticle_unfold]
  split_ifs
  · exact ⟨fma_wf _ _ _, hfloor, add_wf _ _, mul_wf _ _⟩
  · exact ⟨fma_wf _ _ _, fma_wf _ _ _, add_wf _ _, add_wf _ _⟩

/-! ## The states the step leaves unchanged -/

theorem rest_bounces :
    F32.lt (F32.fma (F32.add (F32.fin restVelocityY) (F32.fin (-13153337 / 134217728)))
      (F32.fin (5368709 / 536870912)) (F32.fin (-1))) (F32.fin (-1)) = true := by decide!

theorem rest_velocity_fixed :
    F32.mul (F32.add (F32.fin restVelocityY) (F32.fin (-13153337 / 134217728)))
      (F32.fin (-13421773 / 16777216)) = F32.fin restVelocityY := by decide!

/-- In the bounce branch the velocity is restored only at the rest velocity. -/
theorem bounce_restores_iff (py vy : F32)
    (hb : F32.lt (F32.fma (F32.add vy (F32.fin (-13153337 / 134217728)))
      (F32.fin (5368709 / 536870912)) py) (F32.fin (-1)) = true) :
    F32.mul (F32.add vy (F32.fin (-13153337 / 134217728))) (F32.fin (-13421773 / 16777216)) = vy
      ↔ vy = F32.fin restVelocityY := by
  constructor
  · intro h
    cases vy with
    | nan =>
      exfalso
      cases py <;> simp [F32.fma, F32.add, F32.mul, F32.lt] at hb
    | pinf =>
      exfalso
      have hm : F32.mul F32.pinf (F32.fin (5368709 / 536870912)) = F32.pinf := by decide!
      cases py <;> simp [F32.fma, F32.add, hm, F32.lt] at hb
    | ninf =>
      exfalso
      have hm : F32.mul (F32.add F32.ninf (F32.fin (-13153337 / 134217728)))
          (F32.fin (-13421773 / 16777216)) = F32.pinf := by decide!
      rw [hm] at h
      cases h
    | fin v =>
      have hadd : F32.add (F32.fin v) (F32.fin (-13153337 / 134217728))
          = rnd (v + -13153337 / 134217728) := rfl
      rw [hadd] at h
      cases hW : rnd (v + -13153337 / 134217728) with
      | nan => rw [hW] at h; cases h
      | pinf => rw [hW, mul_pinf_rest] at h; cases h
      | ninf => rw [hW, mul_ninf_rest] at h; cases h
      | fin w =>
        rw [hW] at h
        obtain ⟨hw, _, _⟩ := rnd_fin_inv hW
        have h2 : rnd (w * (-13421773 / 16777216)) = F32.fin v := h
        obtain ⟨hv, _, _⟩ := rnd_fin_inv h2
        rw [hw] at hv
        rw [rest_velocity_unique hv.symm]
  · intro h
    rw [h]
    exact rest_velocity_fixed

/-- The step returns a binary32-valued state unchanged exactly when the state is
stationary. -/
theorem stepParticle_eq_self_iff (p : Particle) (hw : p.wf) :
    stepParticle p = p ↔ Stationary p := by
  obtain ⟨⟨px, py⟩, ⟨vx, vy⟩⟩ := p
  obtain ⟨_, _, hvx, _⟩ := hw
  have hvx' : vx.wf := hvx
  unfold Stationary
  rw [specPositionYRaw_eq, specVelocityYRaw_eq, lit_neg_one, DT_eq, stepParticle_unfold]
  simp only [add_zero_wf _ hvx']
  by_cases hb : F32.lt (F32.fma (F32.add vy (F32.fin (-13153337 / 134217728)))
      (F32.fin (5368709 / 536870912)) py) (F32.fin (-1)) = true
  · rw [if_pos hb]
    simp only [Particle.mk.injEq, float2.mk.injEq, true_and]
    constructor
    · rintro ⟨⟨hx, hy⟩, hv⟩
      exact ⟨hx, Or.inl ⟨hy.symm, (bounce_restores_iff py vy hb).mp hv⟩⟩
    · rintro ⟨hx, hrest | hfree⟩
      · exact ⟨⟨hx, hrest.1.symm⟩, (bounce_restores_iff py vy hb).mpr hrest.2⟩
      · rw [hb] at hfree
        exact absurd hfree.1 (by simp)
  · rw [if_neg hb]
    simp only [Particle.mk.injEq, float2.mk.injEq, true_and]
    simp only [Bool.not_eq_true] at hb
    constructor
    · rintro ⟨⟨hx, hy⟩, hv⟩
      exact ⟨hx, Or.inr ⟨hb, hv, hy⟩⟩
    · rintro ⟨hx, hrest | hfree⟩
      · exfalso
        rw [hrest.1, hrest.2, rest_bounces] at hb
        exact Bool.noConfusion hb
      · exact ⟨⟨hx, hfree.2.2⟩, hfree.2.1⟩

theorem rndS_gravity_lo : rndS (-(2 ^ 21) + -13153337 / 134217728) = -(2 ^ 21) := by decide!

theorem rndS_gravity_hi : rndS (2 ^ 21 + -13153337 / 134217728) = 2 ^ 21 - 1 / 8 := by decide!

/-! ## Floor, initialisation and horizontal motion -/

/-- C1 fails as stated: a particle whose height is a NaN keeps a NaN height through a
pass (the comparison with the floor is false, so there is no clamp), and a NaN is not
`>= -1.0`.  The pass over an array of such particles steps every slot in that way. -/
theorem floor_fails_on_nan :
    (stepParticle ⟨⟨F32.lit 0, F32.nan⟩, ⟨F32.lit 0, F32.lit 0⟩⟩).position.y = F32.nan ∧
    F32.le (F32.neg (F32.lit 1))
      (stepParticle ⟨⟨F32.lit 0, F32.nan⟩, ⟨F32.lit 0, F32.lit 0⟩⟩).position.y = false ∧
    launchUpdate (List.replicate NUM_PARTICLES ⟨⟨F32.lit 0, F32.nan⟩, ⟨F32.lit 0, F32.lit 0⟩⟩)
      = List.replicate NUM_PARTICLES
          (stepParticle ⟨⟨F32.lit 0, F32.nan⟩, ⟨F32.lit 0, F32.lit 0⟩⟩) := by
  refine ⟨by decide!, by decide!, ?_⟩
  rw [launchUpdate_eq_map _ (List.length_replicate _ _), List.map_replicate]

/-- C1, amended.  Starting from any array produced by `initParticles`, for every sequence
of `rand()` outputs, after any number `k` of passes the array holds `NUM_PARTICLES`
particles and every one of them has `position.y >= -1.0`.  From an arbitrary prior state
a single pass leaves no particle with `position.y < -1.0`, and leaves `position.y >= -1.0`
for every particle whose resulting height is not a NaN. -/
theorem floor_invariant :
    (∀ (rand : ℕ → ℕ) (k : ℕ),
      (launchUpdate^[k] (initParticles rand)).length = NUM_PARTICLES ∧
      ∀ p ∈ launchUpdate^[k] (initParticles rand),
        F32.le (F32.neg (F32.lit 1)) p.position.y = true) ∧
    (∀ buf : List Particle, buf.length = NUM_PARTICLES → ∀ p ∈ launchUpdate buf,
      F32.lt p.position.y (F32.neg (F32.lit 1)) = false ∧
      (p.position.y ≠ F32.nan → F32.le (F32.neg (F32.lit 1)) p.position.y = true)) := by
  constructor
  · intro rand k
    rw [launchUpdate_iterate k _ (initParticles_length rand)]
    refine ⟨by simpa using initParticles_length rand, ?_⟩
    intro p hp
    obtain ⟨p0, hp0, rfl⟩ := List.mem_map.mp hp
    obtain ⟨v, y, _, hy, _, _, hy1, _⟩ :=
      stepParticle_iterate_inRange k p0 (initParticles_inRange rand p0 hp0)
    rw [hy, floor_eq]
    simpa [F32.le] using hy1
  · intro buf hlen p hp
    rw [launchUpdate_eq_map buf hlen] at hp
    obtain ⟨p0, _, rfl⟩ := List.mem_map.mp hp
    rw [stepParticle_unfold, floor_eq]
    split_ifs with hb
    · exact ⟨by simp [F32.lt], fun _ => by simp [F32.le]⟩
    · simp only [Bool.not_eq_true] at hb
      refine ⟨hb, ?_⟩
      intro hnan
      simp only at hb hnan
      revert hb hnan
      generalize F32.fma _ _ p0.position.y = py
      intro hb hnan
      cases py with
      | nan => exact absurd rfl hnan
      | ninf => simp [F32.lt] at hb
      | pinf => simp [F32.le]
      | fin q =>
        simp only [F32.lt, decide_eq_false_iff_not, not_lt] at hb
        simpa [F32.le] using hb

/-- Instance of C1: three passes over the array initialised from the outputs
`0, 1, 2, ...` keep its length, and one pass over an array filled with the particle of
Scenario A (height `1.0`, at rest) leaves that particle at or above the floor. -/
theorem floor_invariant_witness :
    (launchUpdate^[3] (initParticles fun n => n)).length = NUM_PARTICLES ∧
    F32.lt (stepParticle ⟨⟨F32.lit 0, F32.lit 1⟩, ⟨F32.lit 0, F32.lit 0⟩⟩).position.y
      (F32.neg (F32.lit 1)) = false ∧
    F32.le (F32.neg (F32.lit 1))
      (stepParticle ⟨⟨F32.lit 0, F32.lit 1⟩, ⟨F32.lit 0, F32.lit 0⟩⟩).position.y = true :=
  have hmem : stepParticle ⟨⟨F32.lit 0, F32.lit 1⟩, ⟨F32.lit 0, F32.lit 0⟩⟩ ∈
      launchUpdate
        (List.replicate NUM_PARTICLES ⟨⟨F32.lit 0, F32.lit 1⟩, ⟨F32.lit 0, F32.lit 0⟩⟩) := by
    rw [launchUpdate_eq_map _ (List.length_replicate _ _), List.map_replicate]
    exact List.mem_replicate.mpr ⟨by norm_num [NUM_PARTICLES], rfl⟩
  have hw := floor_invariant.2
    (List.replicate NUM_PARTICLES ⟨⟨F32.lit 0, F32.lit 1⟩, ⟨F32.lit 0, F32.lit 0⟩⟩)
    (List.length_replicate _ _) _ hmem
  ⟨(floor_invariant.1 (fun n => n) 3).1, hw.1, hw.2 (by decide!)⟩

/-- C5.  For every slot `i` below `NUM_PARTICLES` and all outputs `r1 = rand (2 * i)`,
`r2 = rand (2 * i + 1)` of the two calls made for the slot, `initParticles` sets
`position.x` to the binary32 value of `(r1 % 200 - 100) / 100`, which lies in
`[-1.0, 1.0]`, `position.y` to the binary32 value of `(r2 % 200) / 100`, which lies in
`[0.0, 2.0]`, and the velocity to `(0, 0)`. -/
theorem init_rectangle (rand : ℕ → ℕ) (i : ℕ) (hi : i < NUM_PARTICLES) :
    ∃ p, (initParticles rand)[i]? = some p ∧
      p.position.x = F32.lit ((((rand (2 * i) % 200 : ℕ) : ℚ) - 100) / 100) ∧
      F32.le (F32.lit (-1)) p.position.x = true ∧ F32.le p.position.x (F32.lit 1) = true ∧
      p.position.y = F32.lit (((rand (2 * i + 1) % 200 : ℕ) : ℚ) / 100) ∧
      F32.le (F32.lit 0) p.position.y = true ∧ F32.le p.position.y (F32.lit 2) = true ∧
      p.velocity = ⟨F32.lit 0, F32.lit 0⟩ := by
  refine ⟨_, initParticles_getElem? rand i hi, ?_⟩
  have cx : (rand (2 * i) : ℤ) % 200 = ((rand (2 * i) % 200 : ℕ) : ℤ) := by omega
  have cy : (rand (2 * i + 1) : ℤ) % 200 = ((rand (2 * i + 1) % 200 : ℕ) : ℤ) := by omega
  have hx1 : rand (2 * i) % 200 < 200 := Nat.mod_lt _ (by norm_num)
  have hy1 : rand (2 * i + 1) % 200 < 200 := Nat.mod_lt _ (by norm_num)
  rw [cx, cy]
  have ax : |((rand (2 * i) % 200 : ℕ) : ℤ) - 100| ≤ 2 ^ 24 := by
    rw [abs_le]; constructor <;> omega
  have ay : |((rand (2 * i + 1) % 200 : ℕ) : ℤ)| ≤ 2 ^ 24 := by
    rw [abs_le]; constructor <;> omega
  obtain ⟨qx, ex, _, lx, ux⟩ := div_hundred (((rand (2 * i) % 200 : ℕ) : ℤ) - 100) (-1) 1 ax
    (by norm_num) (by norm_num) (by omega) (by omega)
  obtain ⟨qy, ey, _, ly, uy⟩ := div_hundred ((rand (2 * i + 1) % 200 : ℕ) : ℤ) 0 2 ay
    (by norm_num) (by norm_num) (by omega) (by omega)
  push_cast at lx ux ly uy
  have vx : F32.div (F32.ofInt (((rand (2 * i) % 200 : ℕ) : ℤ) - 100)) (F32.lit 100)
      = F32.lit ((((rand (2 * i) % 200 : ℕ) : ℚ) - 100) / 100) := by
    rw [ofInt_small _ ax, lit_hundred]
    simp only [F32.div, F32.lit, if_neg (show (100 : ℚ) ≠ 0 by norm_num), Int.cast_sub,
      Int.cast_natCast, Int.cast_ofNat]
  have vy : F32.div (F32.ofInt ((rand (2 * i + 1) % 200 : ℕ) : ℤ)) (F32.lit 100)
      = F32.lit (((rand (2 * i + 1) % 200 : ℕ) : ℚ) / 100) := by
    rw [ofInt_small _ ay, lit_hundred]
    simp only [F32.div, F32.lit, if_neg (show (100 : ℚ) ≠ 0 by norm_num), Int.cast_natCast]
  refine ⟨vx, ?_, ?_, vy, ?_, ?_, rfl⟩
  · show F32.le (F32.lit (-1)) (F32.div _ _) = true
    rw [ex, lit_neg_one]; simpa [F32.le] using lx
  · show F32.le (F32.div _ _) (F32.lit 1) = true
    rw [ex, lit_one]; simpa [F32.le] using ux
  · show F32.le (F32.lit 0) (F32.div _ _) = true
    rw [ey, lit_zero]; simpa [F32.le] using ly
  · show F32.le (F32.div _ _) (F32.lit 2) = true
    rw [ey, lit_two]; simpa [F32.le] using uy

/-- Instance of C5: slot 7 with the outputs `0, 1, 2, ...`. -/
theorem init_rectangle_witness :
    ∃ p, (initParticles fun n => n)[7]? = some p ∧
      p.position.x = F32.lit ((((14 % 200 : ℕ) : ℚ) - 100) / 100) ∧
      F32.le (F32.lit (-1)) p.position.x = true ∧ F32.le p.position.x (F32.lit 1) = true ∧
      p.position.y = F32.lit (((15 % 200 : ℕ) : ℚ) / 100) ∧
      F32.le (F32.lit 0) p.position.y = true ∧ F32.le p.position.y (F32.lit 2) = true ∧
      p.velocity = ⟨F32.lit 0, F32.lit 0⟩ :=
  init_rectangle (fun n => n) 7 (by norm_num [NUM_PARTICLES])

/-- C10.  The step never changes `velocity.x` of a binary32-valued particle and advances
`position.x` by `velocity.x * DT` (the new `position.x` is the fused multiply-add
`position.x + velocity.x * DT` of the kernel, the exact sum rounded once); hence, from any
array produced by `initParticles`, after any number `k` of passes every particle has
`velocity.x = 0` and the `position.x` it was initialised with. -/
theorem motion_is_vertical :
    (∀ p : Particle, p.velocity.x.wf →
      (stepParticle p).velocity.x = p.velocity.x ∧
      (stepParticle p).position.x = F32.fma p.velocity.x DT p.position.x) ∧
    (∀ (rand : ℕ → ℕ) (k i : ℕ), i < NUM_PARTICLES →
      ∃ p0 p, (initParticles rand)[i]? = some p0 ∧
        (launchUpdate^[k] (initParticles rand))[i]? = some p ∧
        p.velocity.x = F32.lit 0 ∧ p.position.x = p0.position.x) := by
  refine ⟨stepParticle_x, ?_⟩
  intro rand k i hi
  have key : ∀ p0 : Particle, (initParticles rand)[i]? = some p0 →
      p0.velocity.x = F32.fin 0 → ∀ q : ℚ, p0.position.x = F32.fin q → (F32.fin q).wf →
      ∃ p0 p, (initParticles rand)[i]? = some p0 ∧
        (launchUpdate^[k] (initParticles rand))[i]? = some p ∧
        p.velocity.x = F32.lit 0 ∧ p.position.x = p0.position.x := by
    intro p0 hget hv q hx hq
    have h := stepParticle_iterate_x k p0 q hv hx hq
    refine ⟨p0, stepParticle^[k] p0, hget, ?_, ?_, ?_⟩
    · rw [launchUpdate_iterate k _ (initParticles_length rand), List.getElem?_map, hget]
      rfl
    · rw [h.1, lit_zero]
    · rw [h.2, hx]
  have hx0 : (0 : ℤ) ≤ (rand (2 * i) : ℤ) % 200 := Int.emod_nonneg _ (by norm_num)
  have hx1 : (rand (2 * i) : ℤ) % 200 < 200 := Int.emod_lt_of_pos _ (by norm_num)
  obtain ⟨qx, ex, wx, _, _⟩ := div_hundred ((rand (2 * i) : ℤ) % 200 - 100) (-1) 1
    (by rw [abs_le]; constructor <;> omega) (by norm_num) (by norm_num) (by omega) (by omega)
  exact key _ (initParticles_getElem? rand i hi) lit_zero qx ex wx

/-- Instance of C10: a particle moving sideways at `1.0f`, and slot 3 of the array
initialised from the outputs `0, 1, 2, ...` after five passes. -/
theorem motion_is_vertical_witness :
    ((stepParticle ⟨⟨F32.lit 0, F32.lit 1⟩, ⟨F32.lit 1, F32.lit 0⟩⟩).velocity.x = F32.lit 1 ∧
      (stepParticle ⟨⟨F32.lit 0, F32.lit 1⟩, ⟨F32.lit 1, F32.lit 0⟩⟩).position.x
        = F32.fma (F32.lit 1) DT (F32.lit 0)) ∧
    ∃ p0 p, (initParticles fun n => n)[3]? = some p0 ∧
      (launchUpdate^[5] (initParticles fun n => n))[3]? = some p ∧
      p.velocity.x = F32.lit 0 ∧ p.position.x = p0.position.x :=
  ⟨motion_is_vertical.1 ⟨⟨F32.lit 0, F32.lit 1⟩, ⟨F32.lit 1, F32.lit 0⟩⟩ (by decide!),
    motion_is_vertical.2 (fun n => n) 5 3 (by norm_num [NUM_PARTICLES])⟩

/-! ## Bounce and free fall -/

/-- C2.  Bounce law: with `velocity.y_raw = velocity.y_old - 9.8*DT` and
`position.y_raw = position.y_old + velocity.y_raw*DT` in the arithmetic of the kernel
(the latter one fused multiply-add), whenever `position.y_raw < -1.0` the step leaves
`position.y = -1.0` and `velocity.y = -0.8 * velocity.y_raw`.  Scenario B: position `(0, -0.995)` with velocity
`(0, -1.0)` becomes position `(0, -1.0)` with velocity `(0, 0.8784)`, each decimal
standing for the nearest binary32 value. -/
theorem bounce_law :
    (∀ p : Particle, F32.lt (specPositionYRaw p) (F32.lit (-1)) = true →
      (stepParticle p).position.y = F32.lit (-1) ∧
      (stepParticle p).velocity.y = F32.mul (F32.lit (-8 / 10)) (specVelocityYRaw p)) ∧
    stepParticle ⟨⟨F32.lit 0, F32.lit (-995 / 1000)⟩, ⟨F32.lit 0, F32.lit (-1)⟩⟩
      = ⟨⟨F32.lit 0, F32.lit (-1)⟩, ⟨F32.lit 0, F32.lit (8784 / 10000)⟩⟩ := by
  refine ⟨?_, by decide!⟩
  intro p h
  rw [specPositionYRaw_eq, lit_neg_one] at h
  rw [stepParticle_unfold, if_pos h, specVelocityYRaw_eq, lit_neg_one, lit_neg_rest]
  exact ⟨rfl, f32_mul_comm _ _⟩

/-- Instance of C2 at the state of Scenario B. -/
theorem bounce_law_witness :
    (stepParticle ⟨⟨F32.lit 0, F32.lit (-995 / 1000)⟩, ⟨F32.lit 0, F32.lit (-1)⟩⟩).position.y
      = F32.lit (-1) ∧
    (stepParticle ⟨⟨F32.lit 0, F32.lit (-995 / 1000)⟩, ⟨F32.lit 0, F32.lit (-1)⟩⟩).velocity.y
      = F32.mul (F32.lit (-8 / 10))
          (specVelocityYRaw ⟨⟨F32.lit 0, F32.lit (-995 / 1000)⟩, ⟨F32.lit 0, F32.lit (-1)⟩⟩) :=
  bounce_law.1 ⟨⟨F32.lit 0, F32.lit (-995 / 1000)⟩, ⟨F32.lit 0, F32.lit (-1)⟩⟩ (by decide!)

/-- C3.  Free-fall law: whenever a particle has `position.y > -1.0` after the step, the
step has set `velocity.y_new = velocity.y_old - 9.8*DT` and
`position.y_new = position.y_old + velocity.y_new*DT` in the arithmetic of the kernel
(the latter one fused multiply-add).  Scenario
A: position `(0, 1)` with velocity `(0, 0)` becomes velocity `(0, -0.098)` with position
`(0, 0.99902)`, each decimal standing for the nearest binary32 value. -/
theorem free_fall_law :
    (∀ p : Particle, F32.lt (F32.lit (-1)) (stepParticle p).position.y = true →
      (stepParticle p).velocity.y = specVelocityYRaw p ∧
      (stepParticle p).position.y
        = F32.fma (stepParticle p).velocity.y (F32.lit (1 / 100)) p.position.y) ∧
    stepParticle ⟨⟨F32.lit 0, F32.lit 1⟩, ⟨F32.lit 0, F32.lit 0⟩⟩
      = ⟨⟨F32.lit 0, F32.lit (99902 / 100000)⟩, ⟨F32.lit 0, F32.lit (-98 / 1000)⟩⟩ := by
  refine ⟨?_, by decide!⟩
  intro p h
  rw [stepParticle_unfold, lit_neg_one] at h
  rw [stepParticle_unfold, specVelocityYRaw_eq, lit_DT]
  split_ifs at h ⊢ with hb
  · simp [F32.lt] at h
  · exact ⟨rfl, rfl⟩

/-- Instance of C3 at the state of Scenario A. -/
theorem free_fall_law_witness :
    (stepParticle ⟨⟨F32.lit 0, F32.lit 1⟩, ⟨F32.lit 0, F32.lit 0⟩⟩).velocity.y
      = specVelocityYRaw ⟨⟨F32.lit 0, F32.lit 1⟩, ⟨F32.lit 0, F32.lit 0⟩⟩ ∧
    (stepParticle ⟨⟨F32.lit 0, F32.lit 1⟩, ⟨F32.lit 0, F32.lit 0⟩⟩).position.y
      = F32.fma (stepParticle ⟨⟨F32.lit 0, F32.lit 1⟩, ⟨F32.lit 0, F32.lit 0⟩⟩).velocity.y
          (F32.lit (1 / 100)) (F32.lit 1) :=
  free_fall_law.1 ⟨⟨F32.lit 0, F32.lit 1⟩, ⟨F32.lit 0, F32.lit 0⟩⟩ (by decide!)

/-! ## Energy loss and fixed points -/

/-- C4 fails as stated: with `position.y = -2.0` and `velocity.y = 0.098`, the raw
velocity is `0`, the raw height `-2.0` is below the floor, and the bounce leaves
`velocity.y = 0`, whose magnitude is not strictly below that of the raw velocity. -/
theorem bounce_at_zero_velocity :
    F32.lt (specPositionYRaw ⟨⟨F32.lit 0, F32.lit (-2)⟩, ⟨F32.lit 0, F32.lit (98 / 1000)⟩⟩)
      (F32.lit (-1)) = true ∧
    specVelocityYRaw ⟨⟨F32.lit 0, F32.lit (-2)⟩, ⟨F32.lit 0, F32.lit (98 / 1000)⟩⟩
      = F32.fin 0 ∧
    (stepParticle ⟨⟨F32.lit 0, F32.lit (-2)⟩, ⟨F32.lit 0, F32.lit (98 / 1000)⟩⟩).velocity.y
      = F32.fin 0 ∧
    F32.lt
      (F32.abs
        (stepParticle ⟨⟨F32.lit 0, F32.lit (-2)⟩, ⟨F32.lit 0, F32.lit (98 / 1000)⟩⟩).velocity.y)
      (F32.abs
        (specVelocityYRaw ⟨⟨F32.lit 0, F32.lit (-2)⟩, ⟨F32.lit 0, F32.lit (98 / 1000)⟩⟩))
      = false := by
  decide!

/-- C4, amended.  In every state in which the bounce branch is taken, the resulting
`velocity.y` satisfies `|velocity.y| <= |velocity.y_raw|`; the inequality is strict
exactly when `velocity.y_raw` is finite with magnitude at least `3 * 2 ^ (-149)`, that is
unless `velocity.y_raw` is `0`, `±2 ^ (-149)`, `±2 ^ (-148)` or infinite; in particular
it is strict whenever `velocity.y_raw` is finite and the particle was at or above the
floor (`position.y_old >= -1.0`) before the step. -/
theorem bounce_loses_energy (p : Particle)
    (h : F32.lt (specPositionYRaw p) (F32.lit (-1)) = true) :
    F32.le (F32.abs (stepParticle p).velocity.y) (F32.abs (specVelocityYRaw p)) = true ∧
    (F32.lt (F32.abs (stepParticle p).velocity.y) (F32.abs (specVelocityYRaw p)) = true ↔
      ∃ q : ℚ, specVelocityYRaw p = F32.fin q ∧ 3 * pow2 (-149) ≤ |q|) ∧
    (∀ y : ℚ, p.position.y = F32.fin y → -1 ≤ y → (specVelocityYRaw p).isFinite = true →
      F32.lt (F32.abs (stepParticle p).velocity.y) (F32.abs (specVelocityYRaw p)) = true) := by
  rw [specPositionYRaw_eq, lit_neg_one] at h
  have hstep : (stepParticle p).velocity.y
      = F32.mul (specVelocityYRaw p) (F32.fin (-13421773 / 16777216)) := by
    rw [stepParticle_unfold, if_pos h, specVelocityYRaw_eq]
  have hwf : (specVelocityYRaw p).wf := by
    rw [specVelocityYRaw_eq]
    exact add_wf _ _
  rw [hstep]
  rw [← specVelocityYRaw_eq] at h
  revert h hwf
  generalize specVelocityYRaw p = V
  intro h hwf
  cases V with
  | nan =>
    exfalso
    cases hy : p.position.y <;> simp [hy, F32.fma, F32.add, F32.mul, F32.lt] at h
  | pinf =>
    rw [mul_pinf_rest]
    refine ⟨rfl, ⟨fun hlt => ?_, fun hq => ?_⟩, fun y _ _ hf => (by cases hf)⟩
    · simp [F32.abs, F32.lt] at hlt
    · obtain ⟨q, hq, _⟩ := hq
      cases hq
  | ninf =>
    rw [mul_ninf_rest]
    refine ⟨rfl, ⟨fun hlt => ?_, fun hq => ?_⟩, fun y _ _ hf => (by cases hf)⟩
    · simp [F32.abs, F32.lt] at hlt
    · obtain ⟨q, hq, _⟩ := hq
      cases hq
  | fin q =>
    obtain ⟨hfix, hlo, hhi⟩ := wf_fin hwf
    have habs : |q| < pow2 128 := abs_lt.mpr ⟨hlo, hhi⟩
    have hafix : rndAbs |q| = |q| := by rw [← rndS_abs, hfix]
    have hprod : |q * (-13421773 / 16777216)| = |q| * (13421773 / 16777216) := by
      rw [abs_mul]
      norm_num [abs_of_neg]
    have hle : |rndS (q * (-13421773 / 16777216))| ≤ |q| := by
      rw [rndS_abs, hprod]
      have := rndAbs_mono (show |q| * (13421773 / 16777216) ≤ |q| by
        have := abs_nonneg q
        linarith)
      rwa [hafix] at this
    have hb := abs_le.mp hle
    have e : rnd (q * (-13421773 / 16777216))
        = F32.fin (rndS (q * (-13421773 / 16777216))) :=
      rnd_eq_fin (by have := abs_lt.mp habs; linarith) (by linarith)
    have hstrict : 3 * pow2 (-149) ≤ |q| →
        |rndS (q * (-13421773 / 16777216))| < |q| := by
      intro hn
      rw [rndS_abs, hprod]
      exact rndAbs_restitution_lt hafix hn habs
    have hequal : |q| < 3 * pow2 (-149) →
        |rndS (q * (-13421773 / 16777216))| = |q| := by
      intro hn
      rw [rndS_abs, hprod]
      exact rndAbs_restitution_eq (abs_nonneg q) hafix hn
    simp only [F32.mul, e, F32.abs, F32.le, F32.lt, decide_eq_true_eq]
    refine ⟨hle, ⟨fun hlt => ⟨q, rfl, ?_⟩, ?_⟩, ?_⟩
    · by_contra hcon
      push_neg at hcon
      have := hequal hcon
      linarith
    · rintro ⟨q', hq', hn⟩
      injection hq' with hq'
      subst hq'
      exact hstrict hn
    · intro y hy hy1 _
      rw [hy] at h
      exact hstrict (bounce_needs_speed hy1 h)

/-- Instance of C4 at the state of Scenario B. -/
theorem bounce_loses_energy_witness :
    F32.lt
      (F32.abs
        (stepParticle
          ⟨⟨F32.lit 0, F32.lit (-995 / 1000)⟩, ⟨F32.lit 0, F32.lit (-1)⟩⟩).velocity.y)
      (F32.abs
        (specVelocityYRaw ⟨⟨F32.lit 0, F32.lit (-995 / 1000)⟩, ⟨F32.lit 0, F32.lit (-1)⟩⟩))
      = true :=
  (bounce_loses_energy ⟨⟨F32.lit 0, F32.lit (-995 / 1000)⟩, ⟨F32.lit 0, F32.lit (-1)⟩⟩
    (by decide!)).2.2 (-8346665 / 8388608) (by decide!) (by decide!) (by decide!)

/-- C8 fails as stated: the particle resting on the floor, with `position.y = -1.0` and
`velocity.y = 11691855 / 2 ^ 28` (about `0.0435556`, a binary32 value), is a fixed point
of the step: gravity takes the velocity to `-0.0544444`, the height falls below the floor,
and the bounce restores both.  So applying the update twice gives the same result as
applying it once. -/
theorem rest_state_is_fixed :
    (F32.fin (11691855 / 268435456)).wf ∧
    stepParticle ⟨⟨F32.lit 0, F32.lit (-1)⟩, ⟨F32.lit 0, F32.fin (11691855 / 268435456)⟩⟩
      = ⟨⟨F32.lit 0, F32.lit (-1)⟩, ⟨F32.lit 0, F32.fin (11691855 / 268435456)⟩⟩ ∧
    stepParticle (stepParticle
        ⟨⟨F32.lit 0, F32.lit (-1)⟩, ⟨F32.lit 0, F32.fin (11691855 / 268435456)⟩⟩)
      = stepParticle
        ⟨⟨F32.lit 0, F32.lit (-1)⟩, ⟨F32.lit 0, F32.fin (11691855 / 268435456)⟩⟩ := by
  have h : stepParticle
      ⟨⟨F32.lit 0, F32.lit (-1)⟩, ⟨F32.lit 0, F32.fin (11691855 / 268435456)⟩⟩
      = ⟨⟨F32.lit 0, F32.lit (-1)⟩, ⟨F32.lit 0, F32.fin (11691855 / 268435456)⟩⟩ := by
    decide!
  refine ⟨by decide!, h, ?_⟩
  rw [h, h]

/-- C8, amended.  For every binary32-valued particle state `s`, one step yields a state
different from `s` except exactly when `s` is stationary: `position.x` is not moved by
the step and either `s` rests on the floor (`position.y = -1.0` and
`velocity.y = 11691855 / 2 ^ 28`), or the bounce branch is not taken and rounding absorbs
both the gravity increment and the vertical displacement.  The gravity increment is
absorbed by a finite `velocity.y` exactly when `velocity.y <= -2 ^ 21` or
`velocity.y > 2 ^ 21`; for every other finite `velocity.y` gravity strictly decreases it.
Applying the update twice gives a result different from applying it once, except exactly
when the state after the first update is stationary. -/
theorem step_moves_unless_stationary (p : Particle) (hw : p.wf) :
    (stepParticle p = p ↔ Stationary p) ∧
    (stepParticle (stepParticle p) = stepParticle p ↔ Stationary (stepParticle p)) ∧
    (∀ v : ℚ, p.velocity.y = F32.fin v →
      (specVelocityYRaw p = p.velocity.y ↔ v ≤ -(2 ^ 21) ∨ 2 ^ 21 < v)) ∧
    (∀ v : ℚ, p.velocity.y = F32.fin v → -(2 ^ 21) < v → v ≤ 2 ^ 21 →
      F32.lt (specVelocityYRaw p) p.velocity.y = true) := by
  refine ⟨stepParticle_eq_self_iff p hw,
    stepParticle_eq_self_iff _ (stepParticle_wf p), ?_, ?_⟩
  · intro v hv
    have hwv : (F32.fin v).wf := by
      have := hw.2.2.2
      rwa [hv] at this
    rw [specVelocityYRaw_eq, hv]
    exact gravity_absorbed_iff hwv
  · intro v hv h1 h2
    have hwv : (F32.fin v).wf := by
      have := hw.2.2.2
      rwa [hv] at this
    obtain ⟨hfix, _, _⟩ := wf_fin hwv
    have hbig := pow2_128_large
    have hlt := gravity_moves hfix h1 h2
    obtain ⟨e, l, _⟩ := rnd_between (v + -13153337 / 134217728)
      (-(2 ^ 21) + -13153337 / 134217728) (2 ^ 21 + -13153337 / 134217728)
      (by linarith) (by linarith) (by rw [rndS_gravity_lo]; linarith)
      (by rw [rndS_gravity_hi]; linarith)
    rw [specVelocityYRaw_eq, hv]
    show F32.lt (rnd (v + -13153337 / 134217728)) (F32.fin v) = true
    rw [e]
    simpa [F32.lt] using hlt

/-- Instance of C8 (amended) at the state of Scenario B: the state is binary32-valued and
not stationary, so the step moves it. -/
theorem step_moves_unless_stationary_witness :
    ¬ Stationary ⟨⟨F32.lit 0, F32.lit (-995 / 1000)⟩, ⟨F32.lit 0, F32.lit (-1)⟩⟩ ∧
    stepParticle ⟨⟨F32.lit 0, F32.lit (-995 / 1000)⟩, ⟨F32.lit 0, F32.lit (-1)⟩⟩
      ≠ ⟨⟨F32.lit 0, F32.lit (-995 / 1000)⟩, ⟨F32.lit 0, F32.lit (-1)⟩⟩ :=
  ⟨by decide!, fun heq =>
    absurd ((step_moves_unless_stationary
      ⟨⟨F32.lit 0, F32.lit (-995 / 1000)⟩, ⟨F32.lit 0, F32.lit (-1)⟩⟩ (by decide!)).1.mp heq)
      (by decide!)⟩

/-! ## Launch, count and frame loop -/

/-- C6.  The launch of `(NUM_PARTICLES + 255) / 256` blocks of 256 threads, run in any
order of its threads, maps the per-particle step over the array: every slot below
`NUM_PARTICLES` is advanced exactly once, from its own prior contents.  Every index below
`NUM_PARTICLES` is the global index of exactly one launched thread, and a launched thread
whose index is not below `NUM_PARTICLES` returns the array unchanged. -/
theorem launch_is_particle_map :
    (∀ (buf : List Particle) (sched : List (ℕ × ℕ)), buf.length = NUM_PARTICLES →
      sched.Perm (gridThreads ((NUM_PARTICLES + 255) / 256) 256) →
      runThreads 256 sched buf = buf.map stepParticle) ∧
    (∀ i, i < NUM_PARTICLES →
      ((gridThreads ((NUM_PARTICLES + 255) / 256) 256).map (threadIndex 256)).count i = 1) ∧
    (∀ bt ∈ gridThreads ((NUM_PARTICLES + 255) / 256) 256,
      threadIndex 256 bt ≥ NUM_PARTICLES →
      ∀ buf : List Particle, updateParticles bt.1 256 bt.2 buf = buf) := by
  refine ⟨?_, ?_, ?_⟩
  · intro buf sched hlen hperm
    exact runThreads_perm _ 256 (by decide) sched hperm buf hlen
  · intro i hi
    rw [gridThreads_index, count_range, if_pos]
    have : NUM_PARTICLES ≤ (NUM_PARTICLES + 255) / 256 * 256 := by norm_num [NUM_PARTICLES]
    omega
  · intro bt _ h buf
    have h' : bt.1 * 256 + bt.2 ≥ NUM_PARTICLES := h
    unfold updateParticles
    simp only
    rw [if_pos h']

/-- Instance of C6: on the array produced by `initParticles` from the outputs
`0, 1, 2, ...` the threads taken in reverse order give the map of the step, slot 9999 is
the index of exactly one thread, and the last thread of the launch (block 39, thread 255,
index 10239) leaves the array unchanged. -/
theorem launch_is_particle_map_witness :
    runThreads 256 (gridThreads ((NUM_PARTICLES + 255) / 256) 256).reverse
      (initParticles fun n => n) = (initParticles fun n => n).map stepParticle ∧
    ((gridThreads ((NUM_PARTICLES + 255) / 256) 256).map (threadIndex 256)).count 9999 = 1 ∧
    updateParticles 39 256 255 (initParticles fun n => n) = initParticles fun n => n :=
  ⟨launch_is_particle_map.1 (initParticles fun n => n) _ (initParticles_length _)
      (List.reverse_perm _),
    launch_is_particle_map.2.1 9999 (by norm_num [NUM_PARTICLES]),
    launch_is_particle_map.2.2 (39, 255)
      (mem_gridThreads.mpr ⟨by norm_num [NUM_PARTICLES], by norm_num⟩)
      (by norm_num [threadIndex, NUM_PARTICLES]) _⟩

/-- C7.  An update pass never adds or removes a particle: a thread of the kernel, and so
any sequence of threads, keeps the length of any array, and after any number `k` of
passes over an array of `NUM_PARTICLES` particles the array still holds `NUM_PARTICLES`
particles, slot `i` holding the `k`-fold step of the original slot `i`. -/
theorem count_invariant :
    (∀ (b bd t : ℕ) (buf : List Particle), (updateParticles b bd t buf).length = buf.length) ∧
    (∀ (bd : ℕ) (sched : List (ℕ × ℕ)) (buf : List Particle),
      (runThreads bd sched buf).length = buf.length) ∧
    (∀ (buf : List Particle) (k : ℕ), buf.length = NUM_PARTICLES →
      (launchUpdate^[k] buf).length = NUM_PARTICLES ∧
      ∀ i, i < NUM_PARTICLES →
        (launchUpdate^[k] buf)[i]? = buf[i]?.map (stepParticle^[k])) := by
  refine ⟨updateParticles_length, runThreads_length, ?_⟩
  intro buf k hlen
  rw [launchUpdate_iterate k buf hlen]
  refine ⟨by simpa using hlen, ?_⟩
  intro i _
  rw [List.getElem?_map]

/-- Instance of C7: two passes over an array filled with the particle of Scenario A keep
`NUM_PARTICLES` particles, and slot 0 holds the two-fold step of the original slot 0. -/
theorem count_invariant_witness :
    (launchUpdate^[2]
      (List.replicate NUM_PARTICLES
        ⟨⟨F32.lit 0, F32.lit 1⟩, ⟨F32.lit 0, F32.lit 0⟩⟩)).length = NUM_PARTICLES ∧
    (launchUpdate^[2]
      (List.replicate NUM_PARTICLES ⟨⟨F32.lit 0, F32.lit 1⟩, ⟨F32.lit 0, F32.lit 0⟩⟩))[0]?
      = (List.replicate NUM_PARTICLES
          ⟨⟨F32.lit 0, F32.lit 1⟩, ⟨F32.lit 0, F32.lit 0⟩⟩)[0]?.map (stepParticle^[2]) :=
  ⟨(count_invariant.2.2 _ 2 (List.length_replicate _ _)).1,
    (count_invariant.2.2 _ 2 (List.length_replicate _ _)).2 0 (by norm_num [NUM_PARTICLES])⟩

/-- C9 fails as stated: when `cudaDeviceSynchronize` reports a launch failure, the calls
made by `idle` are still the launch, the wait and `glutPostRedisplay`: the redisplay of
the faulted array is requested and nothing leaves the loop. -/
theorem sync_failure_not_fatal :
    (idle .cudaErrorLaunchFailure (initParticles fun n => n)
        (initParticles fun n => n)).calls
      = [.kernelLaunch 40 256, .cudaDeviceSynchronize .cudaErrorLaunchFailure,
          .glutPostRedisplay] ∧
    Call.glutPostRedisplay ∈
      (idle .cudaErrorLaunchFailure (initParticles fun n => n)
        (initParticles fun n => n)).calls := by
  simp [idle, NUM_PARTICLES]

/-- C9, amended.  `idle` discards the status of `cudaDeviceSynchronize`: whatever the
status, the calls of a frame iteration are the launch, the wait and the posting of the
redisplay, in that order, so the render is requested and the loop is not left; when the
wait succeeds the array offered to the renderer is the result of the launch. -/
theorem idle_ignores_sync_status (sync : cudaError_t) (afterFault buf : List Particle) :
    (idle sync afterFault buf).calls
      = [.kernelLaunch 40 256, .cudaDeviceSynchronize sync, .glutPostRedisplay] ∧
    Call.glutPostRedisplay ∈ (idle sync afterFault buf).calls ∧
    (∀ code : ℤ, Call.exit code ∉ (idle sync afterFault buf).calls) ∧
    (idle .cudaSuccess afterFault buf).particles = launchUpdate buf := by
  refine ⟨?_, ?_, ?_, ?_⟩
  · simp [idle, NUM_PARTICLES]
  · simp [idle]
  · simp [idle]
  · simp only [idle]


end ParticleSim
